import Mathlib

/-!
Verification of the multilang-tools file-reconciliation core.

This file gives a shallow embedding, in Lean 4, of the pure computational
core of the `multilang-tools` plugin: the error-code file organize
pipeline (`fileOrganize.ts`), the key diff (`calculateMissingKeys` /
`calculateRedundantKeys`), the semantic section classifier of the
duplicate implementation (`identifySemanticRules` /
`findCorrectModuleBySemantic`), the line-number based insertion of
translated entries (`batchTranslate.ts`), the value quoting rules of the
translation-file serializers, the backup guard (`shouldCreateBackup` /
`createBackupFile`), and the translation adapters (`translator.ts` and
its older duplicate).

JavaScript strings are modelled as Lean `String`s; the string primitives
used by the source (`trim`, `split('\n')`, `includes`, `startsWith`,
`endsWith`, `substring`, `replace(/../g, ..)`) are implemented on the
underlying character lists so that every definition is executable and
kernel-decidable.  File-system state is modelled as explicit directory
listings, and the HTTP translation service as an explicit response value
or oracle function.  `Map` objects are modelled as association lists
with the same insertion-order and last-write-wins semantics, and stable
`Array.prototype.sort` as a stable insertion sort (stable sorting by a
key is unique, so any stable sort is a faithful model).
-/

/-! ## String primitives (character-list models of the JS operations) -/

/-- Character-list version of `String.trim` / JS `trim`. -/
def trimChars (l : List Char) : List Char :=
  ((l.dropWhile Char.isWhitespace).reverse.dropWhile Char.isWhitespace).reverse

/-- JS `s.trim()`. -/
def jsTrim (s : String) : String := ⟨trimChars s.data⟩

/-- JS `s.includes(pat)` (substring containment). -/
def jsIncludes (s pat : String) : Bool :=
  decide (pat.data <:+: s.data)

/-- JS `s.startsWith(pat)`. -/
def jsStartsWith (s pat : String) : Bool :=
  decide (pat.data <+: s.data)

/-- JS `s.endsWith(pat)`. -/
def jsEndsWith (s pat : String) : Bool :=
  decide (pat.data <:+ s.data)

/-- JS `s.split('\n')` on the character list. -/
def splitNlChars : List Char → List (List Char)
  | [] => [[]]
  | c :: cs =>
    let r := splitNlChars cs
    if c = '\n' then [] :: r
    else match r with
      | [] => [[c]]
      | t :: ts => (c :: t) :: ts

/-- JS `content.split('\n')`, producing the list of lines. -/
def jsLines (s : String) : List String := (splitNlChars s.data).map String.mk

/-- JS `arr.join('\n')`. -/
def joinNl (ls : List String) : String :=
  match ls with
  | [] => ""
  | l :: rest => rest.foldl (fun acc x => acc ++ "\n" ++ x) l

/-- JS `s.substring(0, n)` (codes are ASCII digit strings, so code units
and characters agree). -/
def jsTake (s : String) (n : Nat) : String := ⟨s.data.take n⟩

/-- JS `s.slice(a)` dropping the first `a` characters. -/
def jsDrop (s : String) (n : Nat) : String := ⟨s.data.drop n⟩

/-- JS `s.slice(0, -n)` dropping the last `n` characters. -/
def jsDropRight (s : String) (n : Nat) : String := ⟨s.data.take (s.data.length - n)⟩

/-- JS `s.length` in characters. -/
def jsLen (s : String) : Nat := s.data.length

/-- JS `s.replace(/\n/g, '\\n')`: every newline becomes backslash-n. -/
def escNewlines (s : String) : String :=
  ⟨s.data.flatMap fun c => if c = '\n' then ['\\', 'n'] else [c]⟩

/-- JS `s.replace(/"/g, '\\"')`: every double quote gets a backslash. -/
def escQuotes (s : String) : String :=
  ⟨s.data.flatMap fun c => if c = '"' then ['\\', '"'] else [c]⟩

/-- JS `parseInt` on a digit string (exact for the digit-only codes the
regexes produce; the JS float is exact below 2^53). -/
def intOfDigits (s : String) : Int :=
  (s.data.foldl (fun n c => n * 10 + (c.toNat - 48)) 0 : Nat)

/-- Insertion step of the stable sort: the new element is placed before
the first element whose key is not smaller (so it lands after strictly
smaller keys and before equal ones, as a stable sort requires). -/
def insKeyed (key : α → Int) (e : α) : List α → List α
  | [] => [e]
  | b :: bs => if key b < key e then b :: insKeyed key e bs else e :: b :: bs

/-- Stable insertion sort by an integer key: the model of JS
`Array.prototype.sort((a, b) => key a - key b)`, which is required to be
stable; a stable sort by a key is unique, so this is a faithful model. -/
def sortKeyed (key : α → Int) : List α → List α
  | [] => []
  | e :: es => insKeyed key e (sortKeyed key es)

/-- JS `Set` insertion: append if not already present (JS sets preserve
insertion order). -/
def addUnique (l : List String) (x : String) : List String :=
  if l.contains x then l else l ++ [x]

/-- JS `arr.splice(n, 0, a)`: insert `a` at index `n` (appending when
`n` exceeds the length, as `splice` clamps the start index). -/
def spliceAt (n : Nat) (a : α) (l : List α) : List α :=
  match n, l with
  | 0, l => a :: l
  | _ + 1, [] => [a]
  | n + 1, x :: xs => x :: spliceAt n a xs

/-! ## Diff engine (`fileOrganize.ts`, `calculateMissingKeys` /
`calculateRedundantKeys`) -/

/-- `calculateMissingKeys(sourceKeys, targetKeys)` from `fileOrganize.ts`:
`sourceKeys.filter(key => !targetKeys.includes(key))`, returned together
with its length (the `count` field). -/
def calculateMissingKeys (sourceKeys targetKeys : List String) : Nat × List String :=
  let missingKeys := sourceKeys.filter fun key => !(targetKeys.contains key)
  (missingKeys.length, missingKeys)

/-- `calculateRedundantKeys(sourceKeys, targetKeys)` from
`fileOrganize.ts`: `targetKeys.filter(key => !sourceKeys.includes(key))`. -/
def calculateRedundantKeys (sourceKeys targetKeys : List String) : Nat × List String :=
  let redundantKeys := targetKeys.filter fun key => !(sourceKeys.contains key)
  (redundantKeys.length, redundantKeys)

/-! ## Backup guard (`part_000`, `shouldCreateBackup` / `createBackupFile`)

The backup directory is modelled as `Option (List String)`: `none` when
the directory does not exist, `some files` for its listing. -/

/-- Backup file name `${fileName}_${timestamp}.backup`. -/
def backupFileNameOf (fileName timestamp : String) : String :=
  fileName ++ "_" ++ timestamp ++ ".backup"

/-- `shouldCreateBackup(backupDir, fileName)`: `true` when the backup
directory does not exist, otherwise `true` iff no listed file both
starts with `fileName` and ends with `.backup`. -/
def shouldCreateBackup (backupDir : Option (List String)) (fileName : String) : Bool :=
  match backupDir with
  | none => true
  | some files =>
    let existingBackups := files.filter fun file =>
      jsStartsWith file fileName && jsEndsWith file ".backup"
    existingBackups.length = 0

/-- `createBackupFile(originalContent, backupDir, fileName)`: ensures the
directory exists and writes `${fileName}_${timestamp}.backup`; the
resulting directory listing gains that name (a real directory listing
has no duplicates, and `writeFileSync` overwrites, so an existing name
stays in place). -/
def createBackupFile (backupDir : Option (List String)) (fileName timestamp : String) :
    List String :=
  let files := backupDir.getD []
  let backupFileName := backupFileNameOf fileName timestamp
  if files.contains backupFileName then files else files ++ [backupFileName]

/-- Deleting one backup file (`fs.unlinkSync`) from a directory listing. -/
def removeBackupFile (files : List String) (backupFileName : String) : List String :=
  files.erase backupFileName

/-! ## Translation adapters

The single HTTP response is modelled explicitly.  `translatedText = ""`
models both an absent `responseData`/`translatedText` and an empty
translation (all falsy in JS).  `responseDetails = ""` models an absent
details field. -/

/-- Shape of the MyMemory JSON response as consumed by the code. -/
structure MMResponse where
  ok : Bool
  status : Nat
  responseStatus : Int
  responseDetails : String
  translatedText : String
  deriving Repr, DecidableEq

/-- `myMemoryTranslate` from `src/utils/translator.ts`: the full check
chain on the response, throwing (modelled as `.error`) on HTTP failure,
403, error details, empty text, or sentinel substrings inside the
translated text. -/
def myMemoryTranslate (r : MMResponse) : Except String String :=
  if !r.ok then .error ("MyMemory API error: " ++ toString r.status)
  else if r.responseStatus = 403 then .error "unsupported target language"
  else if r.responseStatus = 200 && r.responseDetails ≠ "" &&
      (jsIncludes r.responseDetails "INVALID TARGET LANGUAGE" ||
       jsIncludes r.responseDetails "INVALID SOURCE LANGUAGE") then
    .error "invalid language code"
  else if r.translatedText = "" then .error "no response or empty result"
  else if jsIncludes r.translatedText "INVALID TARGET LANGUAGE" ||
      jsIncludes r.translatedText "INVALID SOURCE LANGUAGE" ||
      jsIncludes r.translatedText "LANGPAIR=" then
    .error ("translation failed: " ++ r.translatedText)
  else .ok r.translatedText

/-- `translateWithFallback` from `src/utils/translator.ts`: one MyMemory
call; a non-blank, non-`'undefined'` result is re-checked for the
sentinel substrings and returned with service tag `mymemory`. -/
def translateWithFallback (r : MMResponse) : Except String (String × String) :=
  match myMemoryTranslate r with
  | .error e => .error ("translation failed: " ++ e)
  | .ok result =>
    if jsTrim result ≠ "" && result ≠ "undefined" then
      if jsIncludes result "INVALID TARGET LANGUAGE" ||
          jsIncludes result "INVALID SOURCE LANGUAGE" ||
          jsIncludes result "LANGPAIR=" then
        .error ("translation service returned an error: " ++ result)
      else .ok (result, "mymemory")
    else .error "translation failed: empty result"

/-- `myMemoryTranslate` from the older duplicate (`part_004`): only the
HTTP status and the presence of `responseData.translatedText` are
checked, with no sentinel filtering. -/
def myMemoryTranslate04 (r : MMResponse) : Except String String :=
  if !r.ok then .error ("MyMemory API error: " ++ toString r.status)
  else if r.translatedText = "" then .error "Invalid MyMemory response"
  else .ok r.translatedText

/-- `translateWithFallback` from the older duplicate (`part_004`): tries
`google` (which itself calls MyMemory) then `mymemory` on the same
response and returns the first non-blank, non-`'undefined'` result with
no sentinel check; when both fail it returns `{ text: '', service:
'none' }`. -/
def translateWithFallback04 (r : MMResponse) : String × String :=
  match myMemoryTranslate04 r with
  | .ok result =>
    if jsTrim result ≠ "" && result ≠ "undefined" then (result, "google")
    else ("", "none")
  | .error _ =>
    match myMemoryTranslate04 r with
    | .ok result =>
      if jsTrim result ≠ "" && result ≠ "undefined" then (result, "mymemory")
      else ("", "none")
    | .error _ => ("", "none")

/-! ## Error-code batch translation (`src/commands/errorCode/batchTranslate.ts`)

The translation service call is modelled by an oracle
`String → Option String`: `some text` for a successful call returning a
non-empty `translationResult.text`, `none` both for a thrown error and
for an empty/falsy text. -/

/-- Regex `^"(\d+)":\s*"([^"]+)"` from `parseErrorCodes`, applied to the
trimmed line: a double-quoted digit key, a colon, optional whitespace,
and a double-quoted non-empty message; returns `(code, message)`. -/
def matchParseEC (t : String) : Option (String × String) :=
  match t.data with
  | '"' :: rest =>
    let digits := rest.takeWhile Char.isDigit
    let rest2 := rest.dropWhile Char.isDigit
    if digits.isEmpty then none
    else match rest2 with
      | '"' :: ':' :: rest3 =>
        let rest4 := rest3.dropWhile Char.isWhitespace
        match rest4 with
        | '"' :: rest5 =>
          let msg := rest5.takeWhile (· ≠ '"')
          let rest6 := rest5.dropWhile (· ≠ '"')
          if msg.isEmpty then none
          else match rest6 with
            | '"' :: _ => some (⟨digits⟩, ⟨msg⟩)
            | _ => none
        | _ => none
      | _ => none
  | _ => none

/-- `parseErrorCodes(content)`: scan every line for the error-code
entry pattern. -/
def parseErrorCodes (content : String) : List (String × String) :=
  (jsLines content).filterMap fun l => matchParseEC (jsTrim l)

/-- Auxiliary scan for `findErrorCodeLine`. -/
def findECLineAux (code : String) : List String → Nat → Nat
  | [], _ => 0
  | l :: ls, i =>
    if jsStartsWith (jsTrim l) ("\"" ++ code ++ "\":") then i + 1
    else findECLineAux code ls (i + 1)

/-- `findErrorCodeLine(lines, code)`: 1-based number of the first line
whose trimmed text matches `^"code":`, and `0` when no line does. -/
def findErrorCodeLine (lines : List String) (code : String) : Nat :=
  findECLineAux code lines 0

/-- One translated entry carrying the source line number. -/
structure TransEntry where
  code : String
  message : String
  lineNumber : Nat
  deriving Repr, DecidableEq

/-- The inserted line `  "code": "message",`. -/
def insertLineOf (e : TransEntry) : String :=
  "  \"" ++ e.code ++ "\": \"" ++ e.message ++ "\","

/-- One step of the insertion loop of `updateTargetFileWithLineNumber`:
splice the entry at index `lineNumber - 1` when
`0 < lineNumber < newLines.length`, otherwise leave the lines alone. -/
def insertEntryStep (newLines : List String) (e : TransEntry) : List String :=
  if 0 < e.lineNumber ∧ e.lineNumber < newLines.length then
    spliceAt (e.lineNumber - 1) (insertLineOf e) newLines
  else newLines

/-- The insertion loop of `updateTargetFileWithLineNumber` on the line
list: sort by line number, then splice each entry in turn. -/
def updateTargetLines (lines : List String) (es : List TransEntry) : List String :=
  (sortKeyed (fun e => (e.lineNumber : Int)) es).foldl insertEntryStep lines

/-- `arr.join(sep)`. -/
def joinSep (sep : String) : List String → String
  | [] => ""
  | l :: rest => rest.foldl (fun acc x => acc ++ sep ++ x) l

/-- `updateTargetFileWithLineNumber(content, translatedErrorCodes)` from
`errorCode/batchTranslate.ts`: an empty (or whitespace) target gets a
fresh `const errCode = { ... };` file holding every entry; otherwise the
entries are spliced into the split lines by source line number. -/
def updateTargetFileWithLineNumber (content : String) (es : List TransEntry) : String :=
  if jsTrim content = "" then
    "const errCode = \x7b\n" ++
      joinSep ",\n" (es.map fun e => "  \"" ++ e.code ++ "\": \"" ++ e.message ++ "\"") ++
      "\n\x7d;"
  else joinSep "\n" (updateTargetLines (jsLines content) es)

/-- Per-file result record (`{ file, success, translated, errors }`
without the name). -/
structure TransResult where
  success : Bool
  translated : Nat
  errors : List String
  deriving Repr, DecidableEq

/-- Accumulating step of the translation loop in `translateFile`: a
successful call appends the entry (with its looked-up source line
number) and bumps the counter; a failed call appends an error message. -/
def translateStep (oracle : String → Option String) (sourceLines : List String)
    (acc : List TransEntry × Nat × List String) (m : String × String) :
    List TransEntry × Nat × List String :=
  match oracle m.2 with
  | some text =>
    (acc.1 ++ [⟨m.1, text, findErrorCodeLine sourceLines m.1⟩], acc.2.1 + 1, acc.2.2)
  | none =>
    (acc.1, acc.2.1, acc.2.2 ++ ["translate code " ++ m.1 ++ " failed"])

/-- `translateFile(sourceErrorCodes, targetFilePath, ...)` from
`errorCode/batchTranslate.ts`, with the file system made explicit: takes
the target content and the re-read source content, translates each
missing code through the oracle, sorts the successes by source line
number and splices them in; returns the result record and the new target
content (unchanged when nothing was translated). -/
def translateFile (oracle : String → Option String) (sourceErrorCodes : List (String × String))
    (targetContent sourceContent : String) : TransResult × String :=
  let existingCodes := (parseErrorCodes targetContent).map Prod.fst
  let missing := sourceErrorCodes.filter fun s => !(existingCodes.contains s.1)
  if missing.isEmpty then (⟨true, 0, []⟩, targetContent)
  else
    let r := missing.foldl (translateStep oracle (jsLines sourceContent)) ([], 0, [])
    let translated := sortKeyed (fun e => (e.lineNumber : Int)) r.1
    let contentOut :=
      if translated.isEmpty then targetContent
      else updateTargetFileWithLineNumber targetContent translated
    (⟨true, r.2.1, r.2.2⟩, contentOut)

/-! ## Semantic section classifier (`part_002`)

Sections as consumed by `identifySemanticRules`: the section comment
line and the codes of its entries.  JS objects keyed by the comment are
modelled as association lists with insert-or-overwrite-in-place
assignment. -/

/-- A parsed section: comment line plus entry codes. -/
structure SemSection where
  comment : String
  codes : List String
  deriving Repr, DecidableEq

/-- JS object property assignment `m[k] = v`: overwrite in place when
the key exists, append otherwise. -/
def alSet : List (String × List String) → String → List String → List (String × List String)
  | [], k, v => [(k, v)]
  | (k', v') :: rest, k, v =>
    if k' = k then (k, v) :: rest else (k', v') :: alSet rest k v

/-- `analyzePrefixPattern(codes)`: collect, per code, first the 4-digit
prefix (when the code has ≥ 4 characters) and then the 2-digit prefix
(when ≥ 2), into a `Set` preserving insertion order. -/
def analyzePrefixPattern (codes : List String) : List String :=
  codes.foldl
    (fun prefixes code =>
      let p1 := if 4 ≤ jsLen code then addUnique prefixes (jsTake code 4) else prefixes
      if 2 ≤ jsLen code then addUnique p1 (jsTake code 2) else p1)
    []

/-- One section's contribution in `identifySemanticRules` (the loop
body): named heuristics keyed by substrings of the comment, checked in
source order — verification first, then the four named modules, then
the empirical fallback restricted to 4-character prefixes; sections
without codes contribute nothing. -/
def semanticRuleStep (semanticRules : List (String × List String)) (s : SemSection) :
    List (String × List String) :=
  if s.codes.isEmpty then semanticRules
  else
    let sectionName := s.comment
    if jsIncludes sectionName "验证码" || jsIncludes sectionName "报错" then
      let verificationPrefixes := (s.codes.filter fun code =>
        jsStartsWith code "000" || jsStartsWith code "620").map fun code =>
          jsTake code (min 4 (jsLen code))
      if verificationPrefixes.isEmpty then semanticRules
      else alSet semanticRules sectionName (verificationPrefixes.foldl addUnique [])
    else if jsIncludes sectionName "系统" then alSet semanticRules sectionName ["1002"]
    else if jsIncludes sectionName "会员" then alSet semanticRules sectionName ["1003"]
    else if jsIncludes sectionName "运营" then alSet semanticRules sectionName ["1005"]
    else if jsIncludes sectionName "信息" then alSet semanticRules sectionName ["1006"]
    else
      let prefixes := analyzePrefixPattern s.codes
      if prefixes.isEmpty then semanticRules
      else alSet semanticRules sectionName (prefixes.filter fun p => jsLen p = 4)

/-- `identifySemanticRules(sections, moduleRules)` from `part_002` (the
`moduleRules` parameter is unused in the source body and is omitted). -/
def identifySemanticRules (sections : List SemSection) : List (String × List String) :=
  sections.foldl semanticRuleStep []

/-- Per-section rule of the amended C4 claim: the heuristics of
`identifySemanticRules` described pointwise, with their precedence —
the verification check first, then the four named modules, then the
4-digit empirical fallback; `none` when the section has no codes or the
selected branch produces nothing.  Proved below to agree with the
association built by `identifySemanticRules`. -/
def sectionRuleOf (s : SemSection) : Option (List String) :=
  if s.codes.isEmpty then none
  else if jsIncludes s.comment "验证码" || jsIncludes s.comment "报错" then
    let verificationPrefixes := (s.codes.filter fun code =>
      jsStartsWith code "000" || jsStartsWith code "620").map fun code =>
        jsTake code (min 4 (jsLen code))
    if verificationPrefixes.isEmpty then none
    else some (verificationPrefixes.foldl addUnique [])
  else if jsIncludes s.comment "系统" then some ["1002"]
  else if jsIncludes s.comment "会员" then some ["1003"]
  else if jsIncludes s.comment "运营" then some ["1005"]
  else if jsIncludes s.comment "信息" then some ["1006"]
  else
    let prefixes := analyzePrefixPattern s.codes
    if prefixes.isEmpty then none
    else some (prefixes.filter fun p => jsLen p = 4)

/-- `findCorrectModuleBySemantic(code, semanticRules)` from `part_002`:
return the *first* section (in `Object.entries` order) one of whose
prefixes the code starts with. -/
def findCorrectModuleBySemantic (code : String) : List (String × List String) → Option String
  | [] => none
  | (sectionName, prefixes) :: rest =>
    if prefixes.any fun p => jsStartsWith code p then some sectionName
    else findCorrectModuleBySemantic code rest

/-- `findCorrectModuleIndex(code, modulePrefixes)` from
`fileOrganize.ts`: collect every module one of whose prefixes matches
(with its prefix count), stable-sort by prefix count, and return the
first module index, or `-1` when nothing matches. -/
def findCorrectModuleIndex (code : String) (modulePrefixes : List (Int × List String)) : Int :=
  let matchingModules := modulePrefixes.filterMap fun mp =>
    if mp.2.any (fun p => jsStartsWith code p) then some (mp.1, (mp.2.length : Int)) else none
  match sortKeyed (fun m => m.2) matchingModules with
  | [] => -1
  | m :: _ => m.1

/-! ## Translation-file value formatting (`part_000`) -/

/-- The string-value formatting of `organizeTargetFile` (`part_000`):
escape newlines to the two characters `\n`, then either escape the
embedded double quotes inside a double-quoted string, or plainly
double-quote. -/
def formatTargetValue (v : String) : String :=
  let f := escNewlines v
  if f.data.contains '"' then "\"" ++ escQuotes f ++ "\"" else "\"" ++ f ++ "\""

/-- Modelled from the spec: the value-quoting rule as the spec words it
for the serializer — double-quote the value unless it contains an
embedded double quote, in which case wrap it in backticks *instead of
escaping the quote*; newlines become the two-character sequence `\n`.
Used only to compare the spec's wording with `formatTargetValue`. -/
def specFormatValue (v : String) : String :=
  let f := escNewlines v
  if f.data.contains '"' then "`" ++ f ++ "`" else "\"" ++ f ++ "\""

/-- The value branch of `formatTranslationFile` (`part_000`): a
single-quoted value (with or without trailing comma) is unquoted; if it
contains a double quote it is wrapped in backticks, otherwise in double
quotes; anything else is left alone. -/
def formatSingleQuotedValue (value : String) : String :=
  if jsStartsWith value "'" && jsEndsWith value "'," then
    let v := jsDropRight (jsDrop value 1) 2
    (if v.data.contains '"' then "`" ++ v ++ "`" else "\"" ++ v ++ "\"") ++ ","
  else if jsStartsWith value "'" && jsEndsWith value "'" then
    let v := jsDropRight (jsDrop value 1) 1
    if v.data.contains '"' then "`" ++ v ++ "`" else "\"" ++ v ++ "\""
  else value

/-- The key branch of `formatTranslationFile`: single-quoted keys are
re-quoted with double quotes, unquoted keys are quoted with inner
quotes escaped, already double-quoted keys stay. -/
def formatKeyPart (key : String) : String :=
  if jsStartsWith key "'" && jsEndsWith key "'" then
    "\"" ++ jsDropRight (jsDrop key 1) 1 ++ "\""
  else if !(jsStartsWith key "\"") || !(jsEndsWith key "\"") then
    "\"" ++ escQuotes key ++ "\""
  else key

/-- JS `s.split(c)` for a one-character separator. -/
def splitOnCharAux (sep : Char) : List Char → List (List Char)
  | [] => [[]]
  | c :: cs =>
    let r := splitOnCharAux sep cs
    if c = sep then [] :: r
    else match r with
      | [] => [[c]]
      | t :: ts => (c :: t) :: ts

/-- JS `s.split(c)` producing strings. -/
def splitOnChar (sep : Char) (s : String) : List String :=
  (splitOnCharAux sep s.data).map String.mk

/-- Leading-whitespace capture `line.match(/^\s*/)`. -/
def leadingWS (s : String) : String := ⟨s.data.takeWhile Char.isWhitespace⟩

/-- One line of `formatTranslationFile`: lines with exactly one colon
are split into key and value, trimmed, re-quoted and re-assembled with
the original indentation and `": "`; other lines pass through. -/
def formatLine (line : String) : String :=
  if line.data.contains ':' then
    let parts := splitOnChar ':' line
    if parts.length = 2 then
      let key := jsTrim (parts.headD "")
      let value := jsTrim ((parts.drop 1).headD "")
      leadingWS line ++ formatKeyPart key ++ ": " ++ formatSingleQuotedValue value
    else line
  else line

/-- `formatTranslationFile(content)` from `part_000`: drop blank lines,
format each remaining line, and re-join (the final trailing-empty-line
pop in the source is dead code since blank lines were already
dropped). -/
def formatTranslationFile (content : String) : String :=
  joinSep "\n" (((jsLines content).filter fun l => jsTrim l ≠ "").map formatLine)

/-! ## Error-code file organize (`fileOrganize.ts`)

`organizeSourceFile` parses each line into an item (header, footer,
module comment, error-code entry, or skipped blank), learns each
module's code prefixes, reassigns codes to the "purest" matching
module, and rebuilds the file grouped by module with codes numerically
sorted.  `organizeTargetFile` reorganizes a target file by the
organized source structure, keeping only the target lines whose codes
the source has. -/

/-- Regex `^["'](\d+)["']\s*:\s*["']` applied to the trimmed line: a
quoted (either quote) digit key, optional whitespace, a colon, optional
whitespace, and the opening quote of the value; returns the code. -/
def matchErrCodeLine (t : String) : Option String :=
  match t.data with
  | q :: rest =>
    if q = '"' ∨ q = '\'' then
      let digits := rest.takeWhile Char.isDigit
      let rest2 := rest.dropWhile Char.isDigit
      if digits.isEmpty then none
      else match rest2 with
        | q2 :: rest3 =>
          if q2 = '"' ∨ q2 = '\'' then
            match rest3.dropWhile Char.isWhitespace with
            | ':' :: rest5 =>
              match rest5.dropWhile Char.isWhitespace with
              | q3 :: _ => if q3 = '"' ∨ q3 = '\'' then some ⟨digits⟩ else none
              | [] => none
            | _ => none
          else none
        | [] => none
    else none
  | [] => none

/-- The five outcomes of the per-line classification in
`parseAllItems`. -/
inductive LineKind where
  | headerK : LineKind
  | footerK : LineKind
  | commentK : LineKind
  | entryK : String → LineKind
  | blankK : LineKind
  deriving Repr, DecidableEq

/-- Per-line classification of `parseAllItems`, in source order: the
`const/var/let errCode = {` header check, the lone `}` footer check,
the `//`-comment-with-模块/报错 module check, the error-code regex, and
finally other nonempty lines are kept as header-type lines while blank
lines are skipped. -/
def classifyLine (l : String) : LineKind :=
  let t := jsTrim l
  if jsIncludes t "const errCode = \x7b" || jsIncludes t "var errCode = \x7b" ||
      jsIncludes t "let errCode = \x7b" then .headerK
  else if t = "\x7d" then .footerK
  else if jsStartsWith t "//" && (jsIncludes t "模块" || jsIncludes t "报错") then .commentK
  else
    match matchErrCodeLine t with
    | some code => .entryK code
    | none => if t ≠ "" then .headerK else .blankK

/-- Items of `parseAllItems`: the original line plus, for comments and
error codes, the current module index. -/
inductive OrgItem where
  | header : String → OrgItem
  | footer : String → OrgItem
  | comment : String → Int → OrgItem
  | errorCode : String → String → Int → OrgItem
  deriving Repr, DecidableEq

/-- The stored line of an item. -/
def itemContent : OrgItem → String
  | .header l => l
  | .footer l => l
  | .comment l _ => l
  | .errorCode l _ _ => l

/-- `parseAllItems` body: the running module index starts at `-1` and
is bumped by each module comment. -/
def parseItemsAux : Int → List String → List OrgItem
  | _, [] => []
  | idx, l :: ls =>
    match classifyLine l with
    | .headerK => .header l :: parseItemsAux idx ls
    | .footerK => .footer l :: parseItemsAux idx ls
    | .commentK => .comment l (idx + 1) :: parseItemsAux (idx + 1) ls
    | .entryK code => .errorCode l code idx :: parseItemsAux idx ls
    | .blankK => parseItemsAux idx ls

/-- `parseAllItems(lines)` from `fileOrganize.ts`. -/
def parseAllItems (lines : List String) : List OrgItem := parseItemsAux (-1) lines

/-- Append a code to a module's bucket (`moduleErrorCodes.get(i).push`),
creating the bucket in insertion order when absent. -/
def mcAdd : List (Int × List String) → Int → String → List (Int × List String)
  | [], mi, c => [(mi, [c])]
  | (k, cs) :: rest, mi, c =>
    if k = mi then (k, cs ++ [c]) :: rest else (k, cs) :: mcAdd rest mi c

/-- The per-module code collection of `identifyModulePrefixRules`. -/
def moduleErrorCodesOf (items : List OrgItem) : List (Int × List String) :=
  items.foldl
    (fun m item =>
      match item with
      | .errorCode _ code mi => mcAdd m mi code
      | _ => m)
    []

/-- Prefix collection of `identifyModulePrefixRules`: the first 4
characters (or the first 3 for 3-character codes) of each code, as a
`Set` preserving insertion order. -/
def prefixesOfCodes (codes : List String) : List String :=
  codes.foldl
    (fun prefixes code =>
      if 4 ≤ jsLen code then addUnique prefixes (jsTake code 4)
      else if 3 ≤ jsLen code then addUnique prefixes (jsTake code 3)
      else prefixes)
    []

/-- `identifyModulePrefixRules(items)` from `fileOrganize.ts`: modules
with at least one prefix, in first-occurrence order. -/
def identifyModulePrefixRules (items : List OrgItem) : List (Int × List String) :=
  (moduleErrorCodesOf items).filterMap fun mc =>
    let prefixes := prefixesOfCodes mc.2
    if prefixes.isEmpty then none else some (mc.1, prefixes)

/-- `reassignErrorCodesToCorrectModules(items, modulePrefixes)`: move an
error code when the classified module differs and is not `-1`. -/
def reassignErrorCodesToCorrectModules (items : List OrgItem)
    (modulePrefixes : List (Int × List String)) : List OrgItem :=
  items.map fun item =>
    match item with
    | .errorCode l code mi =>
      let correct := findCorrectModuleIndex code modulePrefixes
      if correct ≠ -1 ∧ correct ≠ mi then .errorCode l code correct
      else .errorCode l code mi
    | other => other

/-- `sortErrorCodesWithinModules(items)` sorts the per-module arrays of
a temporary grouping map of references; the `items` array itself is
returned with order and fields unchanged, so on the item list the step
is the identity (the rebuild sorts again per module anyway). -/
def sortErrorCodesWithinModules (items : List OrgItem) : List OrgItem := items

/-- Set a module's comment in the rebuild accumulator
(`modules.get(i).comment = ...`), creating the module at the end when
absent. -/
def modSetComment : List (Int × String × List (String × String)) → Int → String →
    List (Int × String × List (String × String))
  | [], mi, c => [(mi, c, [])]
  | (k, cm, es) :: rest, mi, c =>
    if k = mi then (k, c, es) :: rest else (k, cm, es) :: modSetComment rest mi c

/-- Append an error code `(line, code)` to a module in the rebuild
accumulator, creating the module (with empty comment) when absent. -/
def modAddEC : List (Int × String × List (String × String)) → Int → String × String →
    List (Int × String × List (String × String))
  | [], mi, p => [(mi, "", [p])]
  | (k, cm, es) :: rest, mi, p =>
    if k = mi then (k, cm, es ++ [p]) :: rest else (k, cm, es) :: modAddEC rest mi p

/-- One item of the module-grouping pass of `rebuildFileFromItems`. -/
def buildStep (m : List (Int × String × List (String × String))) (item : OrgItem) :
    List (Int × String × List (String × String)) :=
  match item with
  | .comment l mi => modSetComment m mi l
  | .errorCode l code mi => modAddEC m mi (l, code)
  | _ => m

/-- The module-grouping pass of `rebuildFileFromItems`. -/
def buildModules (items : List OrgItem) : List (Int × String × List (String × String)) :=
  items.foldl buildStep []

/-- One module's emitted lines: its comment when nonempty, then its
error-code lines sorted by `parseInt` of the code. -/
def moduleLines (md : String × List (String × String)) : List String :=
  (if md.1 ≠ "" then [md.1] else []) ++
    (sortKeyed (fun p => intOfDigits p.2) md.2).map Prod.fst

/-- `rebuildFileFromItems(items)` as a line list: header lines, then
the modules in ascending index order, then footer lines. -/
def rebuildItemsLines (items : List OrgItem) : List String :=
  let headerLines := items.filterMap fun i =>
    match i with
    | .header l => some l
    | _ => none
  let footerLines := items.filterMap fun i =>
    match i with
    | .footer l => some l
    | _ => none
  let modules := buildModules items
  let sortedModuleIndexes := sortKeyed id (modules.map Prod.fst)
  headerLines ++
    (sortedModuleIndexes.flatMap fun mi =>
      match modules.lookup mi with
      | some md => moduleLines md
      | none => []) ++
    footerLines

/-- `organizeSourceFile` on the line list: parse, identify prefixes,
reassign, (identity) per-module sort, rebuild. -/
def organizeLines (lines : List String) : List String :=
  let allItems := parseAllItems lines
  let modulePrefixes := identifyModulePrefixRules allItems
  let reorganizedItems := reassignErrorCodesToCorrectModules allItems modulePrefixes
  rebuildItemsLines (sortErrorCodesWithinModules reorganizedItems)

/-- `organizeSourceFile(content)` from `fileOrganize.ts`. -/
def organizeSourceFile (content : String) : String :=
  joinSep "\n" (organizeLines (jsLines content))

/-- A section of `parseSections`: the comment (or other) line and its
error codes as `(code, line)` pairs. -/
structure OrgSection where
  comment : String
  errorCodes : List (String × String)
  deriving Repr, DecidableEq

/-- Folding state of `parseSections`. -/
structure PSState where
  sections : List OrgSection
  current : Option (String × List (String × String))
  endBracket : Option String
  deriving Repr

/-- One line of `parseSections` (`fileOrganize.ts` version): a lone `}`
is remembered as the end bracket, a `//` line flushes the running
section and starts a new one, an error-code line joins the running
section (a default `  // 错误码` section is opened if none), any other
line before the first section is kept as a comment-only section, and
other lines inside a section are dropped. -/
def parseSectionsStep (st : PSState) (line : String) : PSState :=
  let trimmed := jsTrim line
  if trimmed = "\x7d" then { st with endBracket := some line }
  else if jsStartsWith trimmed "//" then
    match st.current with
    | some (c, es) =>
      { st with sections := st.sections ++ [⟨c, es⟩], current := some (line, []) }
    | none => { st with current := some (line, []) }
  else
    match matchErrCodeLine trimmed with
    | some code =>
      match st.current with
      | some (c, es) => { st with current := some (c, es ++ [(code, line)]) }
      | none => { st with current := some ("  // 错误码", [(code, line)]) }
    | none =>
      match st.current with
      | none => { st with sections := st.sections ++ [⟨line, []⟩] }
      | some _ => st

/-- `parseSections(lines)` from `fileOrganize.ts`: fold the lines, then
flush the running section and append the end bracket as a final
section. -/
def parseSections (lines : List String) : List OrgSection :=
  let st := lines.foldl parseSectionsStep ⟨[], none, none⟩
  let withCurrent :=
    match st.current with
    | some (c, es) => st.sections ++ [⟨c, es⟩]
    | none => st.sections
  match st.endBracket with
  | some b => withCurrent ++ [⟨b, []⟩]
  | none => withCurrent

/-- `targetErrorCodes.set(code, line)`: overwrite in place or append. -/
def tmSet : List (String × String) → String → String → List (String × String)
  | [], c, l => [(c, l)]
  | (k, v) :: rest, c, l =>
    if k = c then (k, l) :: rest else (k, v) :: tmSet rest c l

/-- The code-to-line map over all target sections (last write wins). -/
def buildTargetMap (sections : List OrgSection) : List (String × String) :=
  sections.foldl (fun m s => s.errorCodes.foldl (fun m' ec => tmSet m' ec.1 ec.2) m) []

/-- `rebuildTargetFile(sourceSections, targetSections)` as a line list:
per source section its comment, then for each source code the target's
line for that code when the target has it. -/
def rebuildTargetLines (sourceSections targetSections : List OrgSection) : List String :=
  let targetErrorCodes := buildTargetMap targetSections
  sourceSections.flatMap fun s =>
    s.comment :: s.errorCodes.filterMap fun ec => targetErrorCodes.lookup ec.1

/-- `rebuildTargetFile` joined back into file text. -/
def rebuildTargetFile (sourceSections targetSections : List OrgSection) : String :=
  joinSep "\n" (rebuildTargetLines sourceSections targetSections)

/-- `organizeTargetFile` on line lists: organize the source, parse both
into sections, and rebuild the target by the source structure. -/
def organizeTargetLines (contentLines sourceLines : List String) : List String :=
  rebuildTargetLines (parseSections (organizeLines sourceLines)) (parseSections contentLines)

/-- `organizeTargetFile(content, sourceContent)` from `fileOrganize.ts`. -/
def organizeTargetFile (content sourceContent : String) : String :=
  joinSep "\n" (organizeTargetLines (jsLines content) (jsLines sourceContent))

/-- Entry extraction per line, exactly as the organize parser
classifies lines: the code together with the full entry line. -/
def lineEntryOf (l : String) : Option (String × String) :=
  match classifyLine l with
  | .entryK code => some (code, l)
  | _ => none

/-- The entry set a re-parse of the given lines yields. -/
def entriesOfLines (lines : List String) : List (String × String) :=
  lines.filterMap lineEntryOf

/-- The raw error-code key of a line (the key regex alone). -/
def lineCodeOf (l : String) : Option String := matchErrCodeLine (jsTrim l)

/-- All error-code keys of a line list. -/
def extractCodes (lines : List String) : List String := lines.filterMap lineCodeOf

/-- All codes of a section list. -/
def sectionCodes (sections : List OrgSection) : List String :=
  sections.flatMap fun s => s.errorCodes.map Prod.fst

/-- The comment items of an item list, with their module indexes. -/
def commentIdxOf : OrgItem → Option Int
  | .comment _ mi => some mi
  | _ => none

/-- Well-formedness of a `parseSections` fold state over ambient lines
`L`: every stored comment line fails the error-code regex, every stored
code pair carries its own line with exactly that code, and every stored
line comes from `L`. -/
def psWF (L : List String) (st : PSState) : Prop :=
  (∀ s ∈ st.sections, lineCodeOf s.comment = none ∧
      ∀ ec ∈ s.errorCodes, lineCodeOf ec.2 = some ec.1 ∧ ec.2 ∈ L) ∧
  (∀ c es, st.current = some (c, es) → lineCodeOf c = none ∧
      ∀ ec ∈ es, lineCodeOf ec.2 = some ec.1 ∧ ec.2 ∈ L) ∧
  (∀ b, st.endBracket = some b → lineCodeOf b = none)

/-- All code/line pairs recorded in a `parseSections` fold state. -/
def psPairs (st : PSState) : List (String × String) :=
  st.sections.flatMap OrgSection.errorCodes ++
    (match st.current with
     | some (_, es) => es
     | none => [])

/-- All code/line pairs of a section list. -/
def secPairs (sections : List OrgSection) : List (String × String) :=
  sections.flatMap OrgSection.errorCodes

/-! ## Theorems -/

/-- Helper: `List.contains` agrees with membership for strings. -/
theorem contains_eq_true_iff_mem (l : List String) (a : String) :
    l.contains a = true ↔ a ∈ l := by
  simp

/-- C2: the diff is plain set difference keyed by the key strings:
`missing` holds exactly the source keys absent from the target and is a
sublist of the source list (so source order is preserved), `redundant`
holds exactly the target keys absent from the source and is a sublist of
the target list, the reported counts are the lengths, and the results do
not depend on the ordering of the *other* list (they are invariant under
permuting it). -/
theorem diff_is_set_difference (A B : List String) :
    (∀ k, k ∈ (calculateMissingKeys A B).2 ↔ k ∈ A ∧ k ∉ B) ∧
    (calculateMissingKeys A B).2.Sublist A ∧
    (calculateMissingKeys A B).1 = (calculateMissingKeys A B).2.length ∧
    (∀ k, k ∈ (calculateRedundantKeys A B).2 ↔ k ∈ B ∧ k ∉ A) ∧
    (calculateRedundantKeys A B).2.Sublist B ∧
    (calculateRedundantKeys A B).1 = (calculateRedundantKeys A B).2.length ∧
    (∀ B', B.Perm B' → calculateMissingKeys A B = calculateMissingKeys A B') ∧
    (∀ A', A.Perm A' → calculateRedundantKeys A B = calculateRedundantKeys A' B) := by
  refine ⟨?_, ?_, rfl, ?_, ?_, rfl, ?_, ?_⟩
  · intro k
    simp [calculateMissingKeys, List.mem_filter]
  · exact List.filter_sublist A
  · intro k
    simp [calculateRedundantKeys, List.mem_filter]
  · exact List.filter_sublist B
  · intro B' h
    have hc : (fun key => !B.contains key) = (fun key => !B'.contains key) := by
      funext k
      by_cases hk : k ∈ B
      · simp [hk, h.mem_iff.mp hk]
      · have hk' : k ∉ B' := fun hx => hk (h.mem_iff.mpr hx)
        simp [hk, hk']
    simp only [calculateMissingKeys, hc]
  · intro A' h
    have hc : (fun key => !A.contains key) = (fun key => !A'.contains key) := by
      funext k
      by_cases hk : k ∈ A
      · simp [hk, h.mem_iff.mp hk]
      · have hk' : k ∉ A' := fun hx => hk (h.mem_iff.mpr hx)
        simp [hk, hk']
    simp only [calculateRedundantKeys, hc]

/-- Witness for C2 at concrete inputs. -/
theorem diff_is_set_difference_witness :
    ("a" ∈ (calculateMissingKeys ["a", "b"] ["b", "c"]).2 ↔
      "a" ∈ ["a", "b"] ∧ "a" ∉ ["b", "c"]) ∧
    calculateMissingKeys ["a", "b"] ["b", "c"] = calculateMissingKeys ["a", "b"] ["c", "b"] :=
  ⟨(diff_is_set_difference ["a", "b"] ["b", "c"]).1 "a",
   (diff_is_set_difference ["a", "b"] ["b", "c"]).2.2.2.2.2.2.1 ["c", "b"]
     (by decide)⟩
/-- Helper for C7: the `true` case of the guard on an existing directory
is exactly "no listed file has the prefix and the extension". -/
theorem shouldCreateBackup_some_iff (files : List String) (fileName : String) :
    shouldCreateBackup (some files) fileName = true ↔
      ∀ f ∈ files, ¬(jsStartsWith f fileName = true ∧ jsEndsWith f ".backup" = true) := by
  simp only [shouldCreateBackup, decide_eq_true_eq, List.length_eq_zero,
    List.filter_eq_nil_iff, Bool.and_eq_true]

/-- Helper for C7: the generated backup name has the base-name prefix
and the `.backup` extension. -/
theorem backupFileNameOf_matches (fileName timestamp : String) :
    jsStartsWith (backupFileNameOf fileName timestamp) fileName = true ∧
      jsEndsWith (backupFileNameOf fileName timestamp) ".backup" = true := by
  constructor
  · have : fileName.data <+: (backupFileNameOf fileName timestamp).data := by
      simp only [backupFileNameOf, String.data_append]
      exact ⟨("_" ++ timestamp ++ ".backup").data, by simp⟩
    simpa [jsStartsWith] using this
  · have : (".backup" : String).data <:+ (backupFileNameOf fileName timestamp).data := by
      simp only [backupFileNameOf, String.data_append]
      exact ⟨(fileName ++ "_" ++ timestamp).data, by simp⟩
    simpa [jsEndsWith] using this

/-- C7: `shouldCreateBackup` returns `true` iff no listed file has the
base-name prefix and the `.backup` extension (a nonexistent directory
lists nothing); immediately after `createBackupFile` for the same base
name it returns `false`; and if it returned `true` before the backup was
created, deleting the created backup file makes it return `true` again. -/
theorem backup_guard_lifecycle (backupDir : Option (List String)) (fileName timestamp : String) :
    (shouldCreateBackup backupDir fileName = true ↔
      ∀ f ∈ backupDir.getD [], ¬(jsStartsWith f fileName = true ∧ jsEndsWith f ".backup" = true)) ∧
    shouldCreateBackup (some (createBackupFile backupDir fileName timestamp)) fileName = false ∧
    (shouldCreateBackup backupDir fileName = true →
      shouldCreateBackup
        (some (removeBackupFile (createBackupFile backupDir fileName timestamp)
          (backupFileNameOf fileName timestamp))) fileName = true) := by
  have hname := backupFileNameOf_matches fileName timestamp
  have hmem : backupFileNameOf fileName timestamp ∈ createBackupFile backupDir fileName timestamp := by
    simp only [createBackupFile]
    by_cases h : (backupDir.getD []).contains (backupFileNameOf fileName timestamp) = true
    · rw [if_pos h]
      exact (contains_eq_true_iff_mem _ _).mp h
    · rw [if_neg h]
      exact List.mem_append_right _ (List.mem_singleton_self _)
  refine ⟨?_, ?_, ?_⟩
  · cases backupDir with
    | none =>
      simp [shouldCreateBackup]
    | some files =>
      simpa using shouldCreateBackup_some_iff files fileName
  · by_contra hcon
    have htrue : shouldCreateBackup
        (some (createBackupFile backupDir fileName timestamp)) fileName = true := by
      cases hb : shouldCreateBackup (some (createBackupFile backupDir fileName timestamp)) fileName
      · exact absurd hb hcon
      · rfl
    exact ((shouldCreateBackup_some_iff _ _).mp htrue) _ hmem ⟨hname.1, hname.2⟩
  · intro htrue
    cases backupDir with
    | none =>
      apply (shouldCreateBackup_some_iff _ _).mpr
      simp [createBackupFile, removeBackupFile]
    | some files =>
      have hnone := (shouldCreateBackup_some_iff files fileName).mp htrue
      have hnotmem : backupFileNameOf fileName timestamp ∉ files := fun hmem' =>
        hnone _ hmem' ⟨hname.1, hname.2⟩
      have hnc : files.contains (backupFileNameOf fileName timestamp) = false := by
        cases hb : files.contains (backupFileNameOf fileName timestamp)
        · rfl
        · exact absurd ((contains_eq_true_iff_mem _ _).mp hb) hnotmem
      have hcreate : createBackupFile (some files) fileName timestamp =
          files ++ [backupFileNameOf fileName timestamp] := by
        simp only [createBackupFile, Option.getD_some]
        rw [if_neg (fun h => hnotmem ((contains_eq_true_iff_mem _ _).mp h))]
      have herase : removeBackupFile (files ++ [backupFileNameOf fileName timestamp])
          (backupFileNameOf fileName timestamp) = files := by
        simp only [removeBackupFile]
        rw [List.erase_append_right _ hnotmem]
        simp
      rw [hcreate, herase]
      exact (shouldCreateBackup_some_iff files fileName).mpr hnone

/-- Witness for C7: empty directory listing, base `zh-CN`, one create
and one delete. -/
theorem backup_guard_lifecycle_witness :
    shouldCreateBackup (some []) "zh-CN" = true ∧
    shouldCreateBackup (some (createBackupFile (some []) "zh-CN" "2025-01-01-00-00-00")) "zh-CN" = false ∧
    shouldCreateBackup
      (some (removeBackupFile (createBackupFile (some []) "zh-CN" "2025-01-01-00-00-00")
        (backupFileNameOf "zh-CN" "2025-01-01-00-00-00"))) "zh-CN" = true :=
  ⟨by decide,
   (backup_guard_lifecycle (some []) "zh-CN" "2025-01-01-00-00-00").2.1,
   (backup_guard_lifecycle (some []) "zh-CN" "2025-01-01-00-00-00").2.2 (by decide)⟩

/-- C8 (amended): the current adapter (`src/utils/translator.ts`) never
returns, as a successful translation, a text containing one of the
sentinel substrings `INVALID TARGET LANGUAGE` or `LANGPAIR=`: whenever
`translateWithFallback` succeeds, its text is free of both sentinels
(the older duplicate adapter in `part_004` performs no such check, see
the counterexample). -/
theorem adapter_success_has_no_sentinel (r : MMResponse) (t service : String)
    (h : translateWithFallback r = .ok (t, service)) :
    jsIncludes t "INVALID TARGET LANGUAGE" = false ∧ jsIncludes t "LANGPAIR=" = false := by
  unfold translateWithFallback at h
  cases hm : myMemoryTranslate r with
  | error e =>
    rw [hm] at h
    exact absurd h (by simp)
  | ok result =>
    rw [hm] at h
    dsimp only at h
    split at h
    · split at h
      · exact absurd h (by simp)
      · rename_i h2
        have ht : result = t := by
          simpa using congrArg (fun x => match x with
            | Except.ok (p : String × String) => p.1
            | Except.error _ => "") h
        subst ht
        simp only [Bool.or_eq_true, not_or] at h2
        exact ⟨Bool.eq_false_iff.mpr h2.1.1, Bool.eq_false_iff.mpr h2.2⟩
    · exact absurd h (by simp)

/-- Witness for C8 (amended): a clean response succeeds and its text
contains neither sentinel. -/
theorem adapter_success_has_no_sentinel_witness :
    translateWithFallback
      ⟨true, 200, 200, "", "Hola"⟩ = .ok ("Hola", "mymemory") ∧
    jsIncludes "Hola" "INVALID TARGET LANGUAGE" = false ∧
    jsIncludes "Hola" "LANGPAIR=" = false :=
  ⟨by rfl, adapter_success_has_no_sentinel ⟨true, 200, 200, "", "Hola"⟩ "Hola" "mymemory" (by rfl)⟩

/-- C8 counterexample: the older duplicate adapter (`part_004`) returns
a response text containing the sentinel `INVALID TARGET LANGUAGE` as a
successful `google` translation instead of treating it as a failure, so
the claim is false of that cited implementation. -/
theorem adapter_sentinel_counterexample :
    translateWithFallback04 ⟨true, 200, 200, "", "INVALID TARGET LANGUAGE SPECIFIED: ES"⟩ =
      ("INVALID TARGET LANGUAGE SPECIFIED: ES", "google") ∧
    jsIncludes "INVALID TARGET LANGUAGE SPECIFIED: ES" "INVALID TARGET LANGUAGE" = true := by
  exact ⟨by rfl, by decide⟩

/-- Helper: `insKeyed` permutes a cons. -/
theorem insKeyed_perm (key : α → Int) (e : α) (l : List α) :
    (insKeyed key e l).Perm (e :: l) := by
  induction l with
  | nil => exact List.Perm.refl _
  | cons b bs ih =>
    by_cases h : key b < key e
    · simp only [insKeyed, if_pos h]
      exact (ih.cons b).trans (List.Perm.swap e b bs)
    · simp only [insKeyed, if_neg h]
      exact List.Perm.refl _

/-- Helper: `sortKeyed` is a permutation. -/
theorem sortKeyed_perm (key : α → Int) (l : List α) :
    (sortKeyed key l).Perm l := by
  induction l with
  | nil => exact List.Perm.refl _
  | cons e es ih =>
    exact (insKeyed_perm key e (sortKeyed key es)).trans (ih.cons e)

/-- Helper: membership is preserved by `sortKeyed`. -/
theorem mem_sortKeyed (key : α → Int) (l : List α) (a : α) :
    a ∈ sortKeyed key l ↔ a ∈ l :=
  (sortKeyed_perm key l).mem_iff

/-- Helper: `insKeyed` preserves sortedness by the key. -/
theorem insKeyed_pairwise (key : α → Int) (e : α) (l : List α)
    (h : l.Pairwise (fun a b => key a ≤ key b)) :
    (insKeyed key e l).Pairwise (fun a b => key a ≤ key b) := by
  induction l with
  | nil => simp [insKeyed]
  | cons b bs ih =>
    rcases List.pairwise_cons.mp h with ⟨hb, hbs⟩
    by_cases hlt : key b < key e
    · simp only [insKeyed, if_pos hlt]
      refine List.pairwise_cons.mpr ⟨?_, ih hbs⟩
      intro x hx
      rcases List.mem_cons.mp ((insKeyed_perm key e bs).mem_iff.mp hx) with hx | hx
      · exact hx ▸ le_of_lt hlt
      · exact hb x hx
    · simp only [insKeyed, if_neg hlt]
      refine List.pairwise_cons.mpr ⟨?_, h⟩
      intro x hx
      rcases List.mem_cons.mp hx with hx | hx
      · exact hx ▸ le_of_not_lt hlt
      · exact le_trans (le_of_not_lt hlt) (hb x hx)

/-- Helper: `sortKeyed` sorts by the key. -/
theorem sortKeyed_pairwise (key : α → Int) (l : List α) :
    (sortKeyed key l).Pairwise (fun a b => key a ≤ key b) := by
  induction l with
  | nil => simp [sortKeyed]
  | cons e es ih => exact insKeyed_pairwise key e _ ih

/-- Helper: a list already strictly sorted by the key is left unchanged
by the stable sort (so the explicit pre-sort in the source is the
identity on strictly increasing input). -/
theorem sortKeyed_eq_self (key : α → Int) (l : List α)
    (h : l.Pairwise (fun a b => key a < key b)) :
    sortKeyed key l = l := by
  induction l with
  | nil => rfl
  | cons e es ih =>
    rcases List.pairwise_cons.mp h with ⟨he, hes⟩
    have : sortKeyed key (e :: es) = insKeyed key e es := by
      simp [sortKeyed, ih hes]
    rw [this]
    cases es with
    | nil => rfl
    | cons b bs =>
      have : ¬ key b < key e := not_lt_of_lt (he b (List.mem_cons_self b bs))
      simp [insKeyed, this]

/-- Helper: filtering commutes with the stable sort. -/
theorem filter_insKeyed (key : α → Int) (p : α → Bool) (e : α) (l : List α)
    (h : l.Pairwise (fun a b => key a ≤ key b)) :
    (insKeyed key e l).filter p =
      if p e then insKeyed key e (l.filter p) else l.filter p := by
  induction l with
  | nil =>
    cases hp : p e <;> simp [insKeyed, List.filter, hp]
  | cons b bs ih =>
    rcases List.pairwise_cons.mp h with ⟨hb, hbs⟩
    by_cases hlt : key b < key e
    · simp only [insKeyed, if_pos hlt]
      cases hpb : p b with
      | true =>
        cases hpe : p e with
        | true =>
          simp only [List.filter_cons, hpb, if_true, hpe, ih hbs]
          simp [insKeyed, hlt, hpe]
        | false =>
          simp only [List.filter_cons, hpb, hpe, ih hbs]
          simp [hpe]
      | false =>
        cases hpe : p e with
        | true =>
          simp only [List.filter_cons, hpb, hpe, ih hbs]
          simp [hpe]
        | false =>
          simp only [List.filter_cons, hpb, hpe, ih hbs]
          simp [hpe]
    · simp only [insKeyed, if_neg hlt]
      cases hpe : p e with
      | true =>
        cases hpb : p b with
        | true =>
          simp only [List.filter_cons, hpe, hpb, if_true]
          simp [insKeyed, hlt]
        | false =>
          simp only [List.filter_cons, hpe, hpb, if_true]
          have hall : ∀ x ∈ bs.filter p, ¬ key x < key e := by
            intro x hx
            have hxbs := List.mem_of_mem_filter hx
            exact not_lt_of_le (le_trans (le_of_not_lt hlt) (hb x hxbs))
          cases hfb : bs.filter p with
          | nil => simp [insKeyed]
          | cons c cs =>
            have hc : ¬ key c < key e := hall c (hfb ▸ List.mem_cons_self c cs)
            simp [insKeyed, hc]
      | false =>
        simp [List.filter_cons, hpe]

/-- Helper: `sortKeyed` then `filter` equals `filter` then `sortKeyed`
(the stable sort keeps the relative order of the kept elements). -/
theorem filter_sortKeyed (key : α → Int) (p : α → Bool) (l : List α) :
    (sortKeyed key l).filter p = sortKeyed key (l.filter p) := by
  induction l with
  | nil => rfl
  | cons e es ih =>
    simp only [sortKeyed]
    rw [filter_insKeyed key p e _ (sortKeyed_pairwise key es), ih]
    cases hpe : p e with
    | true => simp [List.filter_cons, hpe, sortKeyed]
    | false => simp [List.filter_cons, hpe]

/-- Helper: `spliceAt` always grows the list by one. -/
theorem spliceAt_length (n : Nat) (a : α) (l : List α) :
    (spliceAt n a l).length = l.length + 1 := by
  induction l generalizing n with
  | nil => cases n <;> rfl
  | cons x xs ih =>
    cases n with
    | zero => rfl
    | succ n => simp [spliceAt, ih n]

/-- Helper: positions before the splice point are unchanged. -/
theorem spliceAt_get?_lt (n i : Nat) (a : α) (l : List α)
    (hn : n ≤ l.length) (hi : i < n) :
    (spliceAt n a l).get? i = l.get? i := by
  induction l generalizing n i with
  | nil => simp at hn; omega
  | cons x xs ih =>
    cases n with
    | zero => omega
    | succ n =>
      cases i with
      | zero => rfl
      | succ i =>
        simp only [spliceAt, List.get?]
        exact ih n i (by simpa using hn) (by omega)

/-- Helper: the splice point holds the new element. -/
theorem spliceAt_get?_self (n : Nat) (a : α) (l : List α) (hn : n ≤ l.length) :
    (spliceAt n a l).get? n = some a := by
  induction l generalizing n with
  | nil =>
    cases n with
    | zero => rfl
    | succ n => simp at hn
  | cons x xs ih =>
    cases n with
    | zero => rfl
    | succ n => exact ih n (by simpa using hn)

/-- Helper: the insertion fold leaves a position untouched when every
remaining entry's insertion index lies strictly above it. -/
theorem updateFold_get?_lt (es : List TransEntry) (lines : List String) (idx : Nat)
    (h : ∀ e ∈ es, idx < e.lineNumber - 1) :
    (es.foldl insertEntryStep lines).get? idx = lines.get? idx := by
  induction es generalizing lines with
  | nil => rfl
  | cons e rest ih =>
    rw [List.foldl_cons, ih _ (fun e' he' => h e' (List.mem_cons_of_mem _ he'))]
    unfold insertEntryStep
    split
    · rename_i hc
      exact spliceAt_get?_lt _ _ _ _ (by omega) (h e (List.mem_cons_self e rest))
    · rfl

/-- Helper: folding strictly increasing, in-bounds entries grows the
line list by one per entry and places each entry's line at index
`lineNumber - 1`. -/
theorem updateFold_spec (es : List TransEntry) (lines : List String)
    (hpair : es.Pairwise (fun a b => a.lineNumber < b.lineNumber))
    (hbound : ∀ e ∈ es, 0 < e.lineNumber ∧ e.lineNumber < lines.length) :
    (es.foldl insertEntryStep lines).length = lines.length + es.length ∧
    ∀ e ∈ es, (es.foldl insertEntryStep lines).get? (e.lineNumber - 1) =
      some (insertLineOf e) := by
  induction es generalizing lines with
  | nil => simp
  | cons e rest ih =>
    rcases List.pairwise_cons.mp hpair with ⟨hhead, hrest⟩
    rcases hbound e (List.mem_cons_self e rest) with ⟨hpos, hlt⟩
    have hcond : 0 < e.lineNumber ∧ e.lineNumber < lines.length := ⟨hpos, hlt⟩
    have hstep : insertEntryStep lines e =
        spliceAt (e.lineNumber - 1) (insertLineOf e) lines := by
      unfold insertEntryStep
      rw [if_pos hcond]
    have hlen' : (insertEntryStep lines e).length = lines.length + 1 := by
      rw [hstep, spliceAt_length]
    have hbound' : ∀ e' ∈ rest, 0 < e'.lineNumber ∧ e'.lineNumber < (insertEntryStep lines e).length := by
      intro e' he'
      rcases hbound e' (List.mem_cons_of_mem _ he') with ⟨h1, h2⟩
      exact ⟨h1, by omega⟩
    rcases ih (insertEntryStep lines e) hrest hbound' with ⟨ihlen, ihpos⟩
    refine ⟨?_, ?_⟩
    · rw [List.foldl_cons, ihlen, hlen']
      simp [Nat.add_assoc, Nat.add_comm 1 rest.length]
    · intro x hx
      rcases List.mem_cons.mp hx with hx | hx
      · subst hx
        rw [List.foldl_cons,
          updateFold_get?_lt rest _ _ (fun e' he' => by
            have := hhead e' he'
            omega)]
        rw [hstep]
        exact spliceAt_get?_self _ _ _ (by omega)
      · rw [List.foldl_cons]
        exact ihpos x hx

/-- C5: when entries whose source line numbers are strictly increasing
and in bounds are inserted into a nonempty target's line list, each
entry's formatted line ends up at index `lineNumber - 1` of the result,
and those indices are strictly increasing with the entry order — so the
inserted entries appear in the result in exactly their source-file
relative order. -/
theorem insertion_preserves_source_order (lines : List String) (es : List TransEntry)
    (hpair : es.Pairwise (fun a b => a.lineNumber < b.lineNumber))
    (hbound : ∀ e ∈ es, 0 < e.lineNumber ∧ e.lineNumber < lines.length) :
    (∀ i : Fin es.length, (updateTargetLines lines es).get? ((es.get i).lineNumber - 1) =
      some (insertLineOf (es.get i))) ∧
    (∀ i j : Fin es.length, i < j →
      (es.get i).lineNumber - 1 < (es.get j).lineNumber - 1) := by
  have hsortid : sortKeyed (fun e => (e.lineNumber : Int)) es = es :=
    sortKeyed_eq_self _ es (hpair.imp (fun h => Int.ofNat_lt.mpr h))
  have hspec := updateFold_spec es lines hpair hbound
  constructor
  · intro i
    have : updateTargetLines lines es = es.foldl insertEntryStep lines := by
      unfold updateTargetLines
      rw [hsortid]
    rw [this]
    exact hspec.2 (es.get i) (List.get_mem es i.1 i.2)
  · intro i j hij
    have hlt := (List.pairwise_iff_get.mp hpair) i j hij
    have hpos := (hbound (es.get i) (List.get_mem es i.1 i.2)).1
    omega

/-- Witness for C5: two entries at source lines 2 and 3 of a
four-line target. -/
theorem insertion_preserves_source_order_witness :
    (∀ i : Fin ([⟨"2", "b", 2⟩, ⟨"3", "c", 3⟩] : List TransEntry).length,
      (updateTargetLines ["const errCode = \x7b", "  \"1\": \"a\",", "  \"4\": \"d\",", "\x7d"]
          [⟨"2", "b", 2⟩, ⟨"3", "c", 3⟩]).get?
        ((([⟨"2", "b", 2⟩, ⟨"3", "c", 3⟩] : List TransEntry).get i).lineNumber - 1) =
      some (insertLineOf (([⟨"2", "b", 2⟩, ⟨"3", "c", 3⟩] : List TransEntry).get i))) ∧
    (∀ i j : Fin ([⟨"2", "b", 2⟩, ⟨"3", "c", 3⟩] : List TransEntry).length, i < j →
      (([⟨"2", "b", 2⟩, ⟨"3", "c", 3⟩] : List TransEntry).get i).lineNumber - 1 <
        (([⟨"2", "b", 2⟩, ⟨"3", "c", 3⟩] : List TransEntry).get j).lineNumber - 1) :=
  insertion_preserves_source_order
    ["const errCode = \x7b", "  \"1\": \"a\",", "  \"4\": \"d\",", "\x7d"]
    [⟨"2", "b", 2⟩, ⟨"3", "c", 3⟩] (by decide) (by decide)

/-- Helper: a fold ignores elements on which the step is the identity. -/
theorem foldl_filter_of_id {α β : Type} (f : β → α → β) (p : α → Bool)
    (hid : ∀ b a, p a = false → f b a = b) (l : List α) (init : β) :
    l.foldl f init = (l.filter p).foldl f init := by
  induction l generalizing init with
  | nil => rfl
  | cons a rest ih =>
    cases hp : p a
    · rw [List.foldl_cons, hid init a hp, List.filter_cons, if_neg (by simp [hp])]
      exact ih init
    · rw [List.foldl_cons, List.filter_cons, if_pos (by simp [hp]), List.foldl_cons]
      exact ih (f init a)

/-- Helper: counting the `some` results of an if-none map equals
counting the failures. -/
theorem length_filterMap_none_if {α β γ : Type} (f : α → Option γ) (g : α → β) (l : List α) :
    (l.filterMap fun a => if (f a).isSome then none else some (g a)).length =
      (l.filter fun a => (f a).isNone).length := by
  induction l with
  | nil => rfl
  | cons a rest ih =>
    cases hf : f a <;> simp [List.filterMap_cons, List.filter_cons, hf, ih]

/-- Helper: full characterization of the translation loop: the
collected entries are the successes (each with its looked-up source
line number), the counter counts the successes, and the error list
gains one message per failure. -/
theorem translateFold_spec (oracle : String → Option String) (srcLines : List String)
    (ms : List (String × String)) (acc : List TransEntry × Nat × List String) :
    ms.foldl (translateStep oracle srcLines) acc =
      (acc.1 ++ ms.filterMap (fun m => (oracle m.2).map fun t =>
          (⟨m.1, t, findErrorCodeLine srcLines m.1⟩ : TransEntry)),
       acc.2.1 + (ms.filter fun m => (oracle m.2).isSome).length,
       acc.2.2 ++ ms.filterMap fun m =>
         if (oracle m.2).isSome then none
         else some ("translate code " ++ m.1 ++ " failed")) := by
  induction ms generalizing acc with
  | nil => simp
  | cons m rest ih =>
    rw [List.foldl_cons, ih]
    cases ho : oracle m.2 with
    | some t =>
      simp [translateStep, ho, List.filterMap_cons, List.filter_cons,
        Nat.add_comm, Nat.add_assoc, Nat.add_left_comm]
    | none =>
      simp [translateStep, ho, List.filterMap_cons, List.filter_cons]

/-- C10 (amended): with a nonempty target file, entries whose source
line lookup returned `0` are skipped by the insertion (the update is the
same as with those entries removed), while the per-file result still
counts every successful translation in `translated` — one per oracle
success regardless of line number — and records one error exactly per
oracle failure; a whitespace-only/empty target instead gets a freshly
built file containing every translated entry (see the counterexample). -/
theorem zero_line_entry_handling (oracle : String → Option String)
    (codes : List (String × String)) (tgt src : String) (es : List TransEntry)
    (htgt : jsTrim tgt ≠ "") :
    updateTargetFileWithLineNumber tgt es =
      updateTargetFileWithLineNumber tgt (es.filter fun e => 0 < e.lineNumber) ∧
    ((translateFile oracle codes tgt src).1).translated =
      ((codes.filter fun s => !(((parseErrorCodes tgt).map Prod.fst).contains s.1)).filter
        (fun m => (oracle m.2).isSome)).length ∧
    ((translateFile oracle codes tgt src).1).errors.length =
      ((codes.filter fun s => !(((parseErrorCodes tgt).map Prod.fst).contains s.1)).filter
        (fun m => (oracle m.2).isNone)).length := by
  refine ⟨?_, ?_⟩
  · have hid : ∀ (b : List String) (e : TransEntry),
        (decide (0 < e.lineNumber)) = false → insertEntryStep b e = b := by
      intro b e he
      unfold insertEntryStep
      rw [if_neg]
      intro hc
      simp at he
      omega
    have hupd : ∀ es' : List TransEntry,
        updateTargetLines (jsLines tgt) es' =
          updateTargetLines (jsLines tgt) (es'.filter fun e => decide (0 < e.lineNumber)) := by
      intro es'
      unfold updateTargetLines
      rw [foldl_filter_of_id insertEntryStep (fun e => decide (0 < e.lineNumber)) hid,
        filter_sortKeyed]
    unfold updateTargetFileWithLineNumber
    rw [if_neg htgt, if_neg htgt, hupd]
  · unfold translateFile
    dsimp only
    split
    · rename_i hempty
      rw [List.isEmpty_iff] at hempty
      rw [hempty]
      simp
    · rw [translateFold_spec]
      dsimp only
      refine ⟨by simp, ?_⟩
      rw [List.nil_append, length_filterMap_none_if]

/-- Witness for C10 (amended): one located and one unlocatable code
against a two-line target. -/
theorem zero_line_entry_handling_witness :
    (jsTrim "const errCode = \x7b\n\x7d" ≠ "") ∧
    updateTargetFileWithLineNumber "const errCode = \x7b\n\x7d"
        [⟨"9", "x", 0⟩, ⟨"1", "y", 1⟩] =
      updateTargetFileWithLineNumber "const errCode = \x7b\n\x7d"
        (([⟨"9", "x", 0⟩, ⟨"1", "y", 1⟩] : List TransEntry).filter fun e => 0 < e.lineNumber) ∧
    ((translateFile (fun _ => some "X") [("5", "m")] "const errCode = \x7b\n\x7d"
        "const errCode = \x7b\n\x7d").1).translated = 1 :=
  ⟨by decide,
   (zero_line_entry_handling (fun _ => some "X") [("5", "m")] "const errCode = \x7b\n\x7d"
      "const errCode = \x7b\n\x7d" [⟨"9", "x", 0⟩, ⟨"1", "y", 1⟩] (by decide)).1,
   by
    have h := (zero_line_entry_handling (fun _ => some "X") [("5", "m")]
      "const errCode = \x7b\n\x7d" "const errCode = \x7b\n\x7d"
      [⟨"9", "x", 0⟩, ⟨"1", "y", 1⟩] (by decide)).2.1
    rw [h]
    decide⟩

/-- C10 counterexample: with an *empty* target file, a successfully
translated entry whose code is nowhere in the source text (line lookup
returns `0`) *is* written into the rebuilt target file — refuting "never
inserted" — while still being counted as translated with no error. -/
theorem zero_line_entry_counterexample :
    findErrorCodeLine (jsLines "const errCode = \x7b\n\x7d") "123" = 0 ∧
    ((translateFile (fun _ => some "X") [("123", "msg")] "" "const errCode = \x7b\n\x7d").1).translated = 1 ∧
    ((translateFile (fun _ => some "X") [("123", "msg")] "" "const errCode = \x7b\n\x7d").1).errors = [] ∧
    jsIncludes (translateFile (fun _ => some "X") [("123", "msg")] "" "const errCode = \x7b\n\x7d").2
      "\"123\": \"X\"" = true := by
  refine ⟨by decide, by decide, by decide, by decide⟩

/-- Helper: the head of the stable sort has a minimal key. -/
theorem sortKeyed_head_min (key : α → Int) (l : List α) (m : α) (t : List α)
    (h : sortKeyed key l = m :: t) :
    ∀ x ∈ l, key m ≤ key x := by
  intro x hx
  have hx' : x ∈ m :: t := h ▸ (mem_sortKeyed key l x).mpr hx
  rcases List.mem_cons.mp hx' with hx' | hx'
  · exact hx' ▸ le_refl _
  · have hp := sortKeyed_pairwise key l
    rw [h] at hp
    exact (List.pairwise_cons.mp hp).1 x hx'

/-- C3 (amended): `findCorrectModuleIndex` (the `fileOrganize.ts`
classifier) returns, whenever some module's prefix pattern matches the
code, a module that matches and whose total prefix count is minimal
among all matching modules (ties go to the earliest module); the
duplicate classifier `findCorrectModuleBySemantic` instead returns the
first matching section regardless of prefix counts (see the
counterexample). -/
theorem classifier_picks_fewest (code : String) (rules : List (Int × List String)) (mi : Int)
    (hm : findCorrectModuleIndex code rules = mi)
    (hmatch : ∃ mp ∈ rules, mp.2.any (fun p => jsStartsWith code p) = true) :
    ∃ ps, (mi, ps) ∈ rules ∧ ps.any (fun p => jsStartsWith code p) = true ∧
      ∀ mp ∈ rules, mp.2.any (fun p => jsStartsWith code p) = true →
        ps.length ≤ mp.2.length := by
  rcases hmatch with ⟨mp0, hmp0, hany0⟩
  have hmem0 : ((mp0.1, (mp0.2.length : Int)) : Int × Int) ∈
      rules.filterMap (fun mp =>
        if mp.2.any (fun p => jsStartsWith code p) then some (mp.1, (mp.2.length : Int))
        else none) :=
    List.mem_filterMap.mpr ⟨mp0, hmp0, by rw [if_pos hany0]⟩
  have hm' : (match sortKeyed (fun m : Int × Int => m.2) (rules.filterMap fun mp =>
      if mp.2.any (fun p => jsStartsWith code p) then some (mp.1, (mp.2.length : Int))
      else none) with
    | [] => (-1 : Int)
    | m :: _ => m.1) = mi := hm
  set matching := rules.filterMap (fun mp =>
    if mp.2.any (fun p => jsStartsWith code p) then some (mp.1, (mp.2.length : Int))
    else none) with hmatching
  cases hs : sortKeyed (fun m : Int × Int => m.2) matching with
  | nil =>
    exact absurd ((mem_sortKeyed _ _ _).mpr hmem0) (by rw [hs]; exact List.not_mem_nil _)
  | cons m t =>
    rw [hs] at hm'
    dsimp only at hm'
    have hm := hm'
    have hmmem : m ∈ matching := (mem_sortKeyed _ _ _).mp (hs ▸ List.mem_cons_self m t)
    rcases List.mem_filterMap.mp hmmem with ⟨mp, hmp, heq⟩
    have hany : mp.2.any (fun p => jsStartsWith code p) = true := by
      by_contra hno
      rw [if_neg hno] at heq
      exact Option.noConfusion heq
    rw [if_pos hany] at heq
    have hm1 : mp.1 = m.1 := congrArg Prod.fst (Option.some.injEq _ _ ▸ heq :)
    have hm2 : (mp.2.length : Int) = m.2 := congrArg Prod.snd (Option.some.injEq _ _ ▸ heq :)
    refine ⟨mp.2, ?_, hany, ?_⟩
    · have : (mi, mp.2) = mp := by
        rw [← hm]
        exact Prod.ext (hm1.symm) rfl
      rw [this]
      exact hmp
    · intro mp' hmp' hany'
      have hmem' : ((mp'.1, (mp'.2.length : Int)) : Int × Int) ∈ matching :=
        List.mem_filterMap.mpr ⟨mp', hmp', by rw [if_pos hany']⟩
      have := sortKeyed_head_min (fun m => m.2) matching m t hs _ hmem'
      have : (mp.2.length : Int) ≤ (mp'.2.length : Int) := hm2 ▸ this
      exact_mod_cast this

/-- Witness for C3 (amended): the code `5555000` matches modules `0`
(two prefixes) and `2` (one prefix); the classifier picks module `2`
and its prefix count is minimal. -/
theorem classifier_picks_fewest_witness :
    findCorrectModuleIndex "5555000" [((0 : Int), ["100", "5555"]), (2, ["5555"])] = 2 ∧
    ∃ ps, ((2 : Int), ps) ∈ [((0 : Int), ["100", "5555"]), (2, ["5555"])] ∧
      ps.any (fun p => jsStartsWith "5555000" p) = true ∧
      ∀ mp ∈ [((0 : Int), ["100", "5555"]), (2, ["5555"])],
        mp.2.any (fun p => jsStartsWith "5555000" p) = true → ps.length ≤ mp.2.length :=
  ⟨by decide,
   classifier_picks_fewest "5555000" [((0 : Int), ["100", "5555"]), (2, ["5555"])] 2
     (by decide) ⟨(2, ["5555"]), by decide, by decide⟩⟩

/-- C3 counterexample: against rules produced by the semantic pipeline
itself, the code `0001234` matches both the verification section (two
prefixes) and section B (one prefix), yet `findCorrectModuleBySemantic`
assigns it to the verification section — not to the matching section
with the fewest total prefixes. -/
theorem semantic_classifier_counterexample :
    identifySemanticRules
        [⟨"// 验证码报错", ["000", "620"]⟩, ⟨"// B模块", ["00012345"]⟩] =
      [("// 验证码报错", ["000", "620"]), ("// B模块", ["0001"])] ∧
    findCorrectModuleBySemantic "0001234"
        [("// 验证码报错", ["000", "620"]), ("// B模块", ["0001"])] =
      some "// 验证码报错" ∧
    (["0001"] : List String).any (fun p => jsStartsWith "0001234" p) = true ∧
    List.lookup "// 验证码报错"
        [("// 验证码报错", ["000", "620"]), ("// B模块", ["0001"])] =
      some ["000", "620"] ∧
    ¬ ((["000", "620"] : List String).length ≤ (["0001"] : List String).length) := by
  refine ⟨by decide, by decide, by decide, by decide, by decide⟩

/-- Helper: assignment stores its value. -/
theorem alSet_lookup_self (m : List (String × List String)) (k : String) (v : List String) :
    (alSet m k v).lookup k = some v := by
  induction m with
  | nil => simp [alSet, List.lookup]
  | cons p rest ih =>
    by_cases h : p.1 = k
    · simp [alSet, h, List.lookup]
    · have hbe : (k == p.1) = false := beq_eq_false_iff_ne.mpr fun he => h he.symm
      simp only [alSet]
      rw [if_neg (by simpa using h)]
      simp [List.lookup, hbe, ih]

/-- Helper: assignment leaves other keys alone. -/
theorem alSet_lookup_ne (m : List (String × List String)) (k k' : String) (v : List String)
    (h : k' ≠ k) : (alSet m k v).lookup k' = m.lookup k' := by
  have hbe : (k' == k) = false := beq_eq_false_iff_ne.mpr h
  induction m with
  | nil => simp [alSet, List.lookup, hbe]
  | cons p rest ih =>
    by_cases hp : p.1 = k
    · subst hp
      simp [alSet, List.lookup, hbe]
    · simp only [alSet]
      rw [if_neg (by simpa using hp)]
      cases hk : (k' == p.1) <;> simp [List.lookup, hk, ih]

/-- Helper: one classifier step only writes the section's own comment
key. -/
theorem semanticRuleStep_lookup_other (m : List (String × List String)) (s : SemSection)
    (k : String) (h : k ≠ s.comment) :
    (semanticRuleStep m s).lookup k = m.lookup k := by
  unfold semanticRuleStep
  dsimp only
  split
  · rfl
  · split
    · split
      · rfl
      · exact alSet_lookup_ne m s.comment k _ h
    · split
      · exact alSet_lookup_ne m s.comment k _ h
      · split
        · exact alSet_lookup_ne m s.comment k _ h
        · split
          · exact alSet_lookup_ne m s.comment k _ h
          · split
            · exact alSet_lookup_ne m s.comment k _ h
            · split
              · rfl
              · exact alSet_lookup_ne m s.comment k _ h

/-- Helper: one classifier step sets the section's own key according to
`sectionRuleOf` (or leaves it alone when the rule is `none`). -/
theorem semanticRuleStep_lookup_self (m : List (String × List String)) (s : SemSection) :
    (semanticRuleStep m s).lookup s.comment =
      (sectionRuleOf s).or (m.lookup s.comment) := by
  unfold semanticRuleStep sectionRuleOf
  dsimp only
  split
  · rfl
  · split
    · split
      · rfl
      · rw [alSet_lookup_self]
        rfl
    · split
      · rw [alSet_lookup_self]
        rfl
      · split
        · rw [alSet_lookup_self]
          rfl
        · split
          · rw [alSet_lookup_self]
            rfl
          · split
            · rw [alSet_lookup_self]
              rfl
            · split
              · rfl
              · rw [alSet_lookup_self]
                rfl

/-- Helper: folding sections that never mention a key leaves its lookup
unchanged. -/
theorem semanticFold_lookup_untouched (sections : List SemSection)
    (m : List (String × List String)) (k : String)
    (h : ∀ s ∈ sections, k ≠ s.comment) :
    (sections.foldl semanticRuleStep m).lookup k = m.lookup k := by
  induction sections generalizing m with
  | nil => rfl
  | cons x rest ih =>
    rw [List.foldl_cons, ih _ (fun s hs => h s (List.mem_cons_of_mem _ hs)),
      semanticRuleStep_lookup_other m x k (h x (List.mem_cons_self x rest))]

/-- Helper: with pairwise distinct comments, the folded rules map every
section's comment to its `sectionRuleOf`, falling back to the initial
association. -/
theorem semanticFold_lookup (sections : List SemSection) (m : List (String × List String))
    (hnd : (sections.map SemSection.comment).Nodup) :
    ∀ s ∈ sections, (sections.foldl semanticRuleStep m).lookup s.comment =
      (sectionRuleOf s).or (m.lookup s.comment) := by
  induction sections generalizing m with
  | nil => intro s hs; exact absurd hs (List.not_mem_nil s)
  | cons x rest ih =>
    have hnd' := hnd
    rw [List.map_cons] at hnd'
    rcases List.nodup_cons.mp hnd' with ⟨hx, hrest⟩
    intro s hs
    rcases List.mem_cons.mp hs with hs | hs
    · subst hs
      rw [List.foldl_cons,
        semanticFold_lookup_untouched rest _ s.comment
          (fun s' hs' => fun he => hx (he ▸ List.mem_map_of_mem SemSection.comment hs')),
        semanticRuleStep_lookup_self]
    · have hne : s.comment ≠ x.comment := by
        intro he
        exact hx (he ▸ List.mem_map_of_mem SemSection.comment hs)
      rw [List.foldl_cons, ih _ hrest s hs, semanticRuleStep_lookup_other m x s.comment hne]

/-- C4 (amended): with pairwise distinct section comments, the rules
built by `identifySemanticRules` assign to each section holding at
least one code exactly the rule given by the named heuristics *applied
with their source precedence*: the verification/"报错" check first
(4-digit prefixes of the codes starting `000`/`620`, or no rule when
there are none), then "系统" ↦ `["1002"]`, "会员" ↦ `["1003"]`,
"运营" ↦ `["1005"]`, "信息" ↦ `["1006"]`, and otherwise the observed
4-digit prefixes (no rule when the pattern analysis finds nothing);
sections without codes get no rule.  A comment containing both "系统"
and "报错" therefore gets the verification rule, not `["1002"]` (see
the counterexample). -/
theorem semantic_rules_spec (sections : List SemSection)
    (hnd : (sections.map SemSection.comment).Nodup) :
    ∀ s ∈ sections, (identifySemanticRules sections).lookup s.comment = sectionRuleOf s := by
  intro s hs
  unfold identifySemanticRules
  rw [semanticFold_lookup sections [] hnd s hs]
  cases sectionRuleOf s <;> rfl

/-- Witness for C4 (amended): four sections exercising the verification
branch, a named branch, the fallback and the empty-section skip. -/
theorem semantic_rules_spec_witness :
    ((identifySemanticRules
        [⟨"// 验证码报错", ["0001111", "6201111", "9999"]⟩,
         ⟨"// 系统模块", ["1002000000"]⟩,
         ⟨"// 活动模块", ["7777000", "88"]⟩,
         ⟨"// 空模块", []⟩]).lookup "// 验证码报错" =
      sectionRuleOf ⟨"// 验证码报错", ["0001111", "6201111", "9999"]⟩) ∧
    ((identifySemanticRules
        [⟨"// 验证码报错", ["0001111", "6201111", "9999"]⟩,
         ⟨"// 系统模块", ["1002000000"]⟩,
         ⟨"// 活动模块", ["7777000", "88"]⟩,
         ⟨"// 空模块", []⟩]).lookup "// 系统模块" =
      some ["1002"]) ∧
    sectionRuleOf ⟨"// 验证码报错", ["0001111", "6201111", "9999"]⟩ = some ["0001", "6201"] ∧
    sectionRuleOf ⟨"// 活动模块", ["7777000", "88"]⟩ = some ["7777"] ∧
    sectionRuleOf ⟨"// 空模块", []⟩ = none :=
  ⟨semantic_rules_spec
      [⟨"// 验证码报错", ["0001111", "6201111", "9999"]⟩,
       ⟨"// 系统模块", ["1002000000"]⟩,
       ⟨"// 活动模块", ["7777000", "88"]⟩,
       ⟨"// 空模块", []⟩] (by decide)
      ⟨"// 验证码报错", ["0001111", "6201111", "9999"]⟩ (by decide),
   by decide, by decide, by decide, by decide⟩

/-- C4 counterexample: a section whose comment contains both "系统" and
"报错" is assigned the verification-style prefixes of its codes, not
the claimed `["1002"]` — the named heuristics carry a precedence the
claim's flat listing lacks. -/
theorem semantic_heuristic_counterexample :
    jsIncludes "// 系统报错" "系统" = true ∧
    identifySemanticRules [⟨"// 系统报错", ["0001111"]⟩] = [("// 系统报错", ["0001"])] ∧
    (identifySemanticRules [⟨"// 系统报错", ["0001111"]⟩]).lookup "// 系统报错" ≠
      some ["1002"] := by
  refine ⟨by decide, by decide, by decide⟩

/-- Helper: escaping newlines leaves no raw newline behind. -/
theorem escNewlines_no_nl (v : String) : '\n' ∉ (escNewlines v).data := by
  intro hmem
  rcases List.mem_flatMap.mp hmem with ⟨c, _, hc⟩
  by_cases h : c = '\n'
  · rw [if_pos h] at hc
    rcases List.mem_cons.mp hc with h' | h'
    · exact absurd h' (by decide)
    · exact absurd (List.mem_singleton.mp h') (by decide)
  · rw [if_neg h] at hc
    exact h (List.mem_singleton.mp hc).symm

/-- Helper: escaping quotes introduces no newline. -/
theorem escQuotes_no_nl (s : String) (h : '\n' ∉ s.data) : '\n' ∉ (escQuotes s).data := by
  intro hmem
  rcases List.mem_flatMap.mp hmem with ⟨c, hcs, hc⟩
  by_cases hq : c = '"'
  · rw [if_pos hq] at hc
    rcases List.mem_cons.mp hc with h' | h'
    · exact absurd h' (by decide)
    · exact absurd (List.mem_singleton.mp h') (by decide)
  · rw [if_neg hq] at hc
    exact h ((List.mem_singleton.mp hc) ▸ hcs)

/-- C6 (amended): value and key quoting of the two serializers.  In
`organizeTargetFile` the value is always double-quoted: plainly when it
holds no double quote, with the embedded quotes *backslash-escaped*
when it does (not backtick-wrapped as claimed — see the
counterexample); its embedded newlines are escaped so the emitted value
holds no raw newline.  In `formatTranslationFile` a single-quoted value
containing a double quote is re-wrapped in backticks with the text kept
verbatim, one without is double-quoted, and the emitted key always
begins and ends with a double quote. -/
theorem value_quoting_rules :
    (∀ v : String, (escNewlines v).data.contains '"' = false →
      formatTargetValue v = "\"" ++ escNewlines v ++ "\"") ∧
    (∀ v : String, (escNewlines v).data.contains '"' = true →
      formatTargetValue v = "\"" ++ escQuotes (escNewlines v) ++ "\"") ∧
    (∀ v : String, '\n' ∉ (formatTargetValue v).data) ∧
    (∀ v : List Char, '"' ∈ v →
      formatSingleQuotedValue ⟨'\'' :: (v ++ ['\'', ','])⟩ = ⟨'`' :: (v ++ ['`', ','])⟩) ∧
    (∀ v : List Char, '"' ∉ v →
      formatSingleQuotedValue ⟨'\'' :: (v ++ ['\'', ','])⟩ = ⟨'"' :: (v ++ ['"', ','])⟩) ∧
    (∀ key : String, jsStartsWith (formatKeyPart key) "\"" = true ∧
      jsEndsWith (formatKeyPart key) "\"" = true) := by
  have hsq : ∀ v : List Char,
      (jsStartsWith ⟨'\'' :: (v ++ ['\'', ','])⟩ "'" &&
        jsEndsWith ⟨'\'' :: (v ++ ['\'', ','])⟩ "',") = true := by
    intro v
    rw [Bool.and_eq_true]
    constructor
    · simp only [jsStartsWith, decide_eq_true_eq]
      exact ⟨v ++ ['\'', ','], rfl⟩
    · simp only [jsEndsWith, decide_eq_true_eq]
      exact ⟨'\'' :: v, by simp⟩
  have hval : ∀ v : List Char,
      jsDropRight (jsDrop ⟨'\'' :: (v ++ ['\'', ','])⟩ 1) 2 = ⟨v⟩ := by
    intro v
    simp only [jsDrop, jsDropRight, List.drop_succ_cons, List.drop_zero]
    congr 1
    have : (v ++ ['\'', ',']).length - 2 = v.length := by simp
    rw [this]
    exact List.take_left v ['\'', ',']
  refine ⟨?_, ?_, ?_, ?_, ?_, ?_⟩
  · intro v h
    unfold formatTargetValue
    dsimp only
    rw [if_neg (by rw [h]; exact Bool.false_ne_true)]
  · intro v h
    unfold formatTargetValue
    dsimp only
    rw [if_pos h]
  · intro v hmem
    unfold formatTargetValue at hmem
    dsimp only at hmem
    by_cases h : (escNewlines v).data.contains '"' = true
    · rw [if_pos h] at hmem
      simp only [String.data_append] at hmem
      rcases List.mem_append.mp hmem with hmem | hmem
      · rcases List.mem_append.mp hmem with hmem | hmem
        · exact absurd hmem (by decide)
        · exact escQuotes_no_nl (escNewlines v) (escNewlines_no_nl v) hmem
      · exact absurd hmem (by decide)
    · rw [if_neg h] at hmem
      simp only [String.data_append] at hmem
      rcases List.mem_append.mp hmem with hmem | hmem
      · rcases List.mem_append.mp hmem with hmem | hmem
        · exact absurd hmem (by decide)
        · exact escNewlines_no_nl v hmem
      · exact absurd hmem (by decide)
  · intro v hq
    unfold formatSingleQuotedValue
    rw [if_pos (hsq v), hval v]
    dsimp only
    rw [if_pos (by simpa using hq)]
    apply String.ext
    simp [String.data_append]
  · intro v hq
    unfold formatSingleQuotedValue
    rw [if_pos (hsq v), hval v]
    dsimp only
    rw [if_neg (by simpa using hq)]
    apply String.ext
    simp [String.data_append]
  · intro key
    unfold formatKeyPart
    split
    · constructor
      · simp only [jsStartsWith, decide_eq_true_eq, String.data_append]
        exact ⟨_, rfl⟩
      · simp only [jsEndsWith, decide_eq_true_eq, String.data_append]
        exact ⟨("\"" ++ jsDropRight (jsDrop key 1) 1).data, by simp [String.data_append]⟩
    · split
      · constructor
        · simp only [jsStartsWith, decide_eq_true_eq, String.data_append]
          exact ⟨_, rfl⟩
        · simp only [jsEndsWith, decide_eq_true_eq, String.data_append]
          exact ⟨("\"" ++ escQuotes key).data, by simp [String.data_append]⟩
      · rename_i hcond
        rw [Bool.not_eq_true, Bool.or_eq_false_iff] at hcond
        refine ⟨?_, ?_⟩
        · have := hcond.1
          simpa using this
        · have := hcond.2
          simpa using this

/-- Witness for C6 (amended): one quoted and one quote-free value
through both serializer paths, plus an unquoted key. -/
theorem value_quoting_rules_witness :
    formatTargetValue "plain" = "\"" ++ escNewlines "plain" ++ "\"" ∧
    formatTargetValue "a\"b" = "\"" ++ escQuotes (escNewlines "a\"b") ++ "\"" ∧
    '\n' ∉ (formatTargetValue "a\nb").data ∧
    formatSingleQuotedValue ⟨'\'' :: (['a', '"', 'b'] ++ ['\'', ','])⟩ =
      ⟨'`' :: (['a', '"', 'b'] ++ ['`', ','])⟩ ∧
    formatSingleQuotedValue ⟨'\'' :: (['a', 'b'] ++ ['\'', ','])⟩ =
      ⟨'"' :: (['a', 'b'] ++ ['"', ','])⟩ ∧
    jsStartsWith (formatKeyPart "name") "\"" = true :=
  ⟨value_quoting_rules.1 "plain" (by decide),
   value_quoting_rules.2.1 "a\"b" (by decide),
   value_quoting_rules.2.2.1 "a\nb",
   value_quoting_rules.2.2.2.1 ['a', '"', 'b'] (by decide),
   value_quoting_rules.2.2.2.2.1 ['a', 'b'] (by decide),
   (value_quoting_rules.2.2.2.2.2 "name").1⟩

/-- C6 counterexample: the target-file serializer (`organizeTargetFile`,
`part_000`) handles a value with an embedded double quote by *escaping*
it inside a double-quoted string, not by wrapping the value in backticks
as the claim states: on `he said "hi"` it differs from the spec-worded
rule and emits backslash-escaped quotes. -/
theorem value_quoting_counterexample :
    formatTargetValue "he said \"hi\"" ≠ specFormatValue "he said \"hi\"" ∧
    formatTargetValue "he said \"hi\"" = "\"he said \\\"hi\\\"\"" ∧
    specFormatValue "he said \"hi\"" = "`he said \"hi\"`" := by
  refine ⟨by decide, by decide, by decide⟩

/-- Helper: a line classifies as blank exactly when its trim is empty. -/
theorem classifyLine_eq_blank_iff (l : String) : classifyLine l = .blankK ↔ jsTrim l = "" := by
  constructor
  · intro h
    unfold classifyLine at h
    dsimp only at h
    split at h
    · exact LineKind.noConfusion h
    · split at h
      · exact LineKind.noConfusion h
      · split at h
        · exact LineKind.noConfusion h
        · split at h
          · exact LineKind.noConfusion h
          · split at h
            · exact LineKind.noConfusion h
            · rename_i hne
              exact not_not.mp (by simpa using hne)
  · intro h
    unfold classifyLine
    dsimp only
    rw [h]
    rfl

/-- Helper: a non-blank classification means a nonempty trim. -/
theorem classifyLine_ne_blank (l : String) (k : LineKind) (hc : classifyLine l = k)
    (hk : k ≠ .blankK) : jsTrim l ≠ "" := by
  intro he
  exact hk (hc ▸ (classifyLine_eq_blank_iff l).mpr he)

/-- Helper: the parsed items carry exactly the nonblank lines, in
order. -/
theorem parseItemsAux_contents (ls : List String) : ∀ idx : Int,
    (parseItemsAux idx ls).map itemContent = ls.filter fun l => jsTrim l ≠ "" := by
  induction ls with
  | nil => intro idx; rfl
  | cons l rest ih =>
    intro idx
    unfold parseItemsAux
    cases hc : classifyLine l with
    | blankK =>
      have ht : jsTrim l = "" := (classifyLine_eq_blank_iff l).mp hc
      rw [List.filter_cons, if_neg (by simp [ht])]
      exact ih idx
    | headerK =>
      have ht := classifyLine_ne_blank l _ hc (by simp)
      rw [List.filter_cons, if_pos (by simpa using ht)]
      simpa [itemContent] using ih idx
    | footerK =>
      have ht := classifyLine_ne_blank l _ hc (by simp)
      rw [List.filter_cons, if_pos (by simpa using ht)]
      simpa [itemContent] using ih idx
    | commentK =>
      have ht := classifyLine_ne_blank l _ hc (by simp)
      rw [List.filter_cons, if_pos (by simpa using ht)]
      simpa [itemContent] using ih (idx + 1)
    | entryK code =>
      have ht := classifyLine_ne_blank l _ hc (by simp)
      rw [List.filter_cons, if_pos (by simpa using ht)]
      simpa [itemContent] using ih idx

/-- Helper: reassignment changes only module indexes: the carried lines
are untouched. -/
theorem reassign_contents (items : List OrgItem) (rules : List (Int × List String)) :
    (reassignErrorCodesToCorrectModules items rules).map itemContent =
      items.map itemContent := by
  unfold reassignErrorCodesToCorrectModules
  rw [List.map_map]
  apply List.map_congr_left
  intro item _
  cases item with
  | errorCode l code mi =>
    by_cases h : findCorrectModuleIndex code rules ≠ -1 ∧ findCorrectModuleIndex code rules ≠ mi
    · simp [itemContent, h]
    · simp [itemContent, h]
  | header l => rfl
  | footer l => rfl
  | comment l mi => rfl

/-- Helper: reassignment leaves comment items exactly in place. -/
theorem reassign_commentIdx (items : List OrgItem) (rules : List (Int × List String)) :
    (reassignErrorCodesToCorrectModules items rules).filterMap commentIdxOf =
      items.filterMap commentIdxOf := by
  unfold reassignErrorCodesToCorrectModules
  rw [List.filterMap_map]
  apply List.filterMap_congr
  intro item _
  cases item with
  | errorCode l code mi =>
    by_cases h : findCorrectModuleIndex code rules ≠ -1 ∧ findCorrectModuleIndex code rules ≠ mi
    · simp [commentIdxOf, h]
    · simp [commentIdxOf, h]
  | header l => rfl
  | footer l => rfl
  | comment l mi => rfl

/-- Helper: the comment indexes produced by the parser are strictly
increasing, and all exceed the running index. -/
theorem parseItemsAux_commentIdx (ls : List String) : ∀ idx : Int,
    ((parseItemsAux idx ls).filterMap commentIdxOf).Pairwise (· < ·) ∧
      ∀ mi ∈ (parseItemsAux idx ls).filterMap commentIdxOf, idx < mi := by
  induction ls with
  | nil =>
    intro idx
    refine ⟨List.Pairwise.nil, ?_⟩
    intro mi hmi
    exact absurd hmi (List.not_mem_nil mi)
  | cons l rest ih =>
    intro idx
    unfold parseItemsAux
    cases hc : classifyLine l with
    | blankK => exact ih idx
    | headerK => simpa [commentIdxOf] using ih idx
    | footerK => simpa [commentIdxOf] using ih idx
    | entryK code => simpa [commentIdxOf] using ih idx
    | commentK =>
      rcases ih (idx + 1) with ⟨hp, hgt⟩
      refine ⟨?_, ?_⟩
      · simp only [List.filterMap_cons, commentIdxOf]
        exact List.pairwise_cons.mpr ⟨fun mi hmi => hgt mi hmi, hp⟩
      · simp only [List.filterMap_cons, commentIdxOf]
        intro mi hmi
        rcases List.mem_cons.mp hmi with h | h
        · omega
        · have := hgt mi h
          omega

/-- Helper: a successful association lookup is a member. -/
theorem lookup_mem {α β : Type} [BEq α] [LawfulBEq α] (m : List (α × β)) (k : α) (v : β)
    (h : m.lookup k = some v) : (k, v) ∈ m := by
  induction m with
  | nil => exact absurd h (by simp [List.lookup])
  | cons p rest ih =>
    simp only [List.lookup] at h
    cases hk : (k == p.1)
    · rw [hk] at h
      exact List.mem_cons_of_mem _ (ih h)
    · rw [hk] at h
      have hkp : k = p.1 := by simpa using hk
      have hv : p.2 = v := by simpa using h
      rw [← hv, hkp]
      exact List.mem_cons_self _ _

/-- Helper: a successful association lookup means the key occurs. -/
theorem lookup_some_mem_keys {α β : Type} [BEq α] [LawfulBEq α] (m : List (α × β)) (k : α) (v : β)
    (h : m.lookup k = some v) : k ∈ m.map Prod.fst := by
  exact List.mem_map_of_mem Prod.fst (lookup_mem m k v h)

/-- Helper: `modSetComment` at the written key. -/
theorem lookup_modSetComment_self (m : List (Int × String × List (String × String)))
    (mi : Int) (c : String) :
    (modSetComment m mi c).lookup mi =
      some (c, match m.lookup mi with
        | some md => md.2
        | none => []) := by
  induction m with
  | nil => simp [modSetComment, List.lookup]
  | cons p rest ih =>
    by_cases h : p.1 = mi
    · simp only [modSetComment]
      rw [if_pos h]
      simp [List.lookup, h.symm]
    · simp only [modSetComment]
      rw [if_neg h]
      have hbe : (mi == p.1) = false := beq_eq_false_iff_ne.mpr fun he => h he.symm
      simp [List.lookup, hbe, ih]

/-- Helper: `modSetComment` elsewhere. -/
theorem lookup_modSetComment_ne (m : List (Int × String × List (String × String)))
    (mi k : Int) (c : String) (h : k ≠ mi) :
    (modSetComment m mi c).lookup k = m.lookup k := by
  have hbe : (k == mi) = false := beq_eq_false_iff_ne.mpr h
  induction m with
  | nil => simp [modSetComment, List.lookup, hbe]
  | cons p rest ih =>
    by_cases hp : p.1 = mi
    · subst hp
      simp only [modSetComment, if_pos rfl]
      simp [List.lookup, hbe]
    · simp only [modSetComment]
      rw [if_neg hp]
      cases hk : (k == p.1) <;> simp [List.lookup, hk, ih]

/-- Helper: `modAddEC` at the written key. -/
theorem lookup_modAddEC_self (m : List (Int × String × List (String × String)))
    (mi : Int) (p : String × String) :
    (modAddEC m mi p).lookup mi =
      some (match m.lookup mi with
        | some md => (md.1, md.2 ++ [p])
        | none => ("", [p])) := by
  induction m with
  | nil => simp [modAddEC, List.lookup]
  | cons q rest ih =>
    by_cases h : q.1 = mi
    · simp only [modAddEC]
      rw [if_pos h]
      simp [List.lookup, h.symm]
    · simp only [modAddEC]
      rw [if_neg h]
      have hbe : (mi == q.1) = false := beq_eq_false_iff_ne.mpr fun he => h he.symm
      simp [List.lookup, hbe, ih]

/-- Helper: `modAddEC` elsewhere. -/
theorem lookup_modAddEC_ne (m : List (Int × String × List (String × String)))
    (mi k : Int) (p : String × String) (h : k ≠ mi) :
    (modAddEC m mi p).lookup k = m.lookup k := by
  have hbe : (k == mi) = false := beq_eq_false_iff_ne.mpr h
  induction m with
  | nil => simp [modAddEC, List.lookup, hbe]
  | cons q rest ih =>
    by_cases hq : q.1 = mi
    · subst hq
      simp only [modAddEC, if_pos rfl]
      simp [List.lookup, hbe]
    · simp only [modAddEC]
      rw [if_neg hq]
      cases hk : (k == q.1) <;> simp [List.lookup, hk, ih]

/-- Helper: through the grouping fold an existing bucket only grows at
the end (its code list stays a prefix). -/
theorem buildFold_es_mono (items : List OrgItem)
    (m : List (Int × String × List (String × String))) (mi : Int)
    (cm : String) (es : List (String × String))
    (h : m.lookup mi = some (cm, es)) :
    ∃ cm' es', (items.foldl buildStep m).lookup mi = some (cm', es') ∧ es.IsPrefix es' := by
  induction items generalizing m cm es with
  | nil => exact ⟨cm, es, h, List.prefix_refl es⟩
  | cons x rest ih =>
    rw [List.foldl_cons]
    cases x with
    | header l => exact ih m cm es h
    | footer l => exact ih m cm es h
    | comment l mi' =>
      by_cases hk : mi = mi'
      · subst hk
        have := lookup_modSetComment_self m mi l
        rw [h] at this
        exact ih _ l es (by simpa [buildStep] using this)
      · have := lookup_modSetComment_ne m mi' mi l hk
        rw [h] at this
        exact ih _ cm es (by simpa [buildStep] using this)
    | errorCode l code mi' =>
      by_cases hk : mi = mi'
      · subst hk
        have := lookup_modAddEC_self m mi (l, code)
        rw [h] at this
        rcases ih (modAddEC m mi (l, code)) cm (es ++ [(l, code)])
          (by simpa [buildStep] using this) with ⟨cm', es', hl, hp⟩
        exact ⟨cm', es', hl, (List.prefix_append es [(l, code)]).trans hp⟩
      · have := lookup_modAddEC_ne m mi' mi (l, code) hk
        rw [h] at this
        exact ih _ cm es (by simpa [buildStep] using this)

/-- Helper: every error-code item lands in its module's bucket. -/
theorem buildFold_ec (items : List OrgItem)
    (m : List (Int × String × List (String × String)))
    (l c : String) (mi : Int) (hmem : OrgItem.errorCode l c mi ∈ items) :
    ∃ cm es, (items.foldl buildStep m).lookup mi = some (cm, es) ∧ (l, c) ∈ es := by
  induction items generalizing m with
  | nil => exact absurd hmem (List.not_mem_nil _)
  | cons x rest ih =>
    rw [List.foldl_cons]
    rcases List.mem_cons.mp hmem with hx | hx
    · subst hx
      have hself := lookup_modAddEC_self m mi (l, c)
      have hmemec : (l, c) ∈ (match m.lookup mi with
          | some md => (md.1, md.2 ++ [(l, c)])
          | none => ("", [(l, c)])).2 := by
        cases m.lookup mi <;> simp
      rcases buildFold_es_mono rest (modAddEC m mi (l, c)) mi _ _
        (by simpa [buildStep] using hself) with ⟨cm', es', hl, hp⟩
      refine ⟨cm', es', hl, hp.subset ?_⟩
      exact hmemec
    · exact ih _ hx

/-- Helper: when no comment item for an index remains, the fold keeps
that module's comment text. -/
theorem buildFold_comment_preserved (items : List OrgItem)
    (m : List (Int × String × List (String × String))) (mi : Int)
    (cm : String) (es : List (String × String))
    (hno : ∀ cm', OrgItem.comment cm' mi ∉ items)
    (h : m.lookup mi = some (cm, es)) :
    ∃ es', (items.foldl buildStep m).lookup mi = some (cm, es') := by
  induction items generalizing m es with
  | nil => exact ⟨es, h⟩
  | cons x rest ih =>
    rw [List.foldl_cons]
    have hno' : ∀ cm', OrgItem.comment cm' mi ∉ rest := fun cm' hmem =>
      hno cm' (List.mem_cons_of_mem _ hmem)
    cases x with
    | header l => exact ih m es hno' h
    | footer l => exact ih m es hno' h
    | comment l mi' =>
      have hk : mi ≠ mi' := by
        intro he
        exact hno l (he ▸ List.mem_cons_self _ _)
      have := lookup_modSetComment_ne m mi' mi l hk
      rw [h] at this
      exact ih _ es hno' (by simpa [buildStep] using this)
    | errorCode l code mi' =>
      by_cases hk : mi = mi'
      · subst hk
        have := lookup_modAddEC_self m mi (l, code)
        rw [h] at this
        exact ih _ (es ++ [(l, code)]) hno' (by simpa [buildStep] using this)
      · have := lookup_modAddEC_ne m mi' mi (l, code) hk
        rw [h] at this
        exact ih _ es hno' (by simpa [buildStep] using this)

/-- Helper: with pairwise distinct comment indexes, every comment item
ends up as its module's comment text. -/
theorem buildFold_comment (items : List OrgItem)
    (m : List (Int × String × List (String × String)))
    (cm : String) (mi : Int) (hmem : OrgItem.comment cm mi ∈ items)
    (hnd : (items.filterMap commentIdxOf).Pairwise (· ≠ ·)) :
    ∃ es, (items.foldl buildStep m).lookup mi = some (cm, es) := by
  induction items generalizing m with
  | nil => exact absurd hmem (List.not_mem_nil _)
  | cons x rest ih =>
    rw [List.foldl_cons]
    rcases List.mem_cons.mp hmem with hx | hx
    · subst hx
      have hnorest : ∀ cm', OrgItem.comment cm' mi ∉ rest := by
        intro cm' hmem'
        have hmi : mi ∈ rest.filterMap commentIdxOf :=
          List.mem_filterMap.mpr ⟨OrgItem.comment cm' mi, hmem', rfl⟩
        have hpc : ∀ y ∈ rest.filterMap commentIdxOf, mi ≠ y := by
          have := hnd
          simp only [List.filterMap_cons, commentIdxOf] at this
          exact (List.pairwise_cons.mp this).1
        exact hpc mi hmi rfl
      exact buildFold_comment_preserved rest _ mi cm _ hnorest
        (by simpa [buildStep] using lookup_modSetComment_self m mi cm)
    · have hnd' : (rest.filterMap commentIdxOf).Pairwise (· ≠ ·) := by
        cases x <;> simp only [List.filterMap_cons, commentIdxOf] at hnd <;>
          first
            | exact hnd
            | exact (List.pairwise_cons.mp hnd).2
      exact ih _ hx hnd'

/-- Helper: where entries of `modSetComment` come from. -/
theorem mem_modSetComment (m : List (Int × String × List (String × String)))
    (mi : Int) (c : String) (k : Int) (cm : String) (es : List (String × String))
    (h : (k, cm, es) ∈ modSetComment m mi c) :
    (k, cm, es) ∈ m ∨ (k = mi ∧ cm = c ∧ (es = [] ∨ ∃ cm0, (mi, cm0, es) ∈ m)) := by
  induction m with
  | nil =>
    simp only [modSetComment] at h
    rcases List.mem_singleton.mp h with h
    refine Or.inr ⟨?_, ?_, Or.inl ?_⟩ <;> simp_all
  | cons p rest ih =>
    simp only [modSetComment] at h
    by_cases hp : p.1 = mi
    · rw [if_pos hp] at h
      rcases List.mem_cons.mp h with h | h
      · have h1 : k = p.1 := by
          have := congrArg Prod.fst h
          simpa using this
        have h2 : cm = c ∧ es = p.2.2 := by
          have := congrArg Prod.snd h
          exact ⟨by simpa using congrArg Prod.fst this, by simpa using congrArg Prod.snd this⟩
        refine Or.inr ⟨h1.trans hp, h2.1, Or.inr ⟨p.2.1, ?_⟩⟩
        rw [h2.2, ← hp]
        exact List.mem_cons_self _ _
      · exact Or.inl (List.mem_cons_of_mem _ h)
    · rw [if_neg hp] at h
      rcases List.mem_cons.mp h with h | h
      · exact Or.inl (h ▸ List.mem_cons_self _ _)
      · rcases ih h with h | ⟨h1, h2, h3⟩
        · exact Or.inl (List.mem_cons_of_mem _ h)
        · refine Or.inr ⟨h1, h2, ?_⟩
          rcases h3 with h3 | ⟨cm0, h3⟩
          · exact Or.inl h3
          · exact Or.inr ⟨cm0, List.mem_cons_of_mem _ h3⟩

/-- Helper: where entries of `modAddEC` come from. -/
theorem mem_modAddEC (m : List (Int × String × List (String × String)))
    (mi : Int) (q : String × String) (k : Int) (cm : String) (es : List (String × String))
    (h : (k, cm, es) ∈ modAddEC m mi q) :
    (k, cm, es) ∈ m ∨
      (k = mi ∧ ∃ es0, es = es0 ++ [q] ∧ ((cm = "" ∧ es0 = []) ∨ (mi, cm, es0) ∈ m)) := by
  induction m with
  | nil =>
    simp only [modAddEC] at h
    rcases List.mem_singleton.mp h with h
    have h1 : k = mi := by
      have := congrArg Prod.fst h
      simpa using this
    have h2 : cm = "" := by
      have := congrArg (fun x => x.2.1) h
      simpa using this
    have h3 : es = [q] := by
      have := congrArg (fun x => x.2.2) h
      simpa using this
    exact Or.inr ⟨h1, [], by simpa using h3, Or.inl ⟨h2, rfl⟩⟩
  | cons p rest ih =>
    simp only [modAddEC] at h
    by_cases hp : p.1 = mi
    · rw [if_pos hp] at h
      rcases List.mem_cons.mp h with h | h
      · have h1 : k = p.1 := by
          have := congrArg Prod.fst h
          simpa using this
        have h2 : cm = p.2.1 := by
          have := congrArg (fun x => x.2.1) h
          simpa using this
        have h3 : es = p.2.2 ++ [q] := by
          have := congrArg (fun x => x.2.2) h
          simpa using this
        refine Or.inr ⟨h1.trans hp, p.2.2, h3, Or.inr ?_⟩
        rw [h2, ← hp]
        exact List.mem_cons_self _ _
      · exact Or.inl (List.mem_cons_of_mem _ h)
    · rw [if_neg hp] at h
      rcases List.mem_cons.mp h with h | h
      · exact Or.inl (h ▸ List.mem_cons_self _ _)
      · rcases ih h with h | ⟨h1, es0, h2, h3⟩
        · exact Or.inl (List.mem_cons_of_mem _ h)
        · refine Or.inr ⟨h1, es0, h2, ?_⟩
          rcases h3 with h3 | h3
          · exact Or.inl h3
          · exact Or.inr (List.mem_cons_of_mem _ h3)

/-- Helper: every bucket of the grouping fold is provenanced: its
comment is empty or comes from a comment item, and each of its code
pairs comes from an error-code item. -/
theorem buildFold_prov (P : Int → String → Prop) (Q : Int → String × String → Prop)
    (items : List OrgItem) (m0 : List (Int × String × List (String × String)))
    (h0 : ∀ mi cm es, (mi, cm, es) ∈ m0 → (cm = "" ∨ P mi cm) ∧ ∀ p ∈ es, Q mi p)
    (hitems : ∀ i ∈ items,
      (∀ cm mi, i = OrgItem.comment cm mi → P mi cm) ∧
      (∀ l c mi, i = OrgItem.errorCode l c mi → Q mi (l, c))) :
    ∀ mi cm es, (mi, cm, es) ∈ items.foldl buildStep m0 →
      (cm = "" ∨ P mi cm) ∧ ∀ p ∈ es, Q mi p := by
  induction items generalizing m0 with
  | nil => exact h0
  | cons x rest ih =>
    rw [List.foldl_cons]
    have hxfacts := hitems x (List.mem_cons_self x rest)
    have hrest : ∀ i ∈ rest,
        (∀ cm mi, i = OrgItem.comment cm mi → P mi cm) ∧
        (∀ l c mi, i = OrgItem.errorCode l c mi → Q mi (l, c)) :=
      fun i hi => hitems i (List.mem_cons_of_mem _ hi)
    refine ih (buildStep m0 x) ?_ hrest
    intro mi cm es hmem
    cases x with
    | header l => exact h0 mi cm es hmem
    | footer l => exact h0 mi cm es hmem
    | comment l mi' =>
      rcases mem_modSetComment m0 mi' l mi cm es (by simpa [buildStep] using hmem) with
        h | ⟨h1, h2, h3⟩
      · exact h0 mi cm es h
      · subst h1
        refine ⟨Or.inr (h2 ▸ hxfacts.1 l mi rfl), ?_⟩
        rcases h3 with h3 | ⟨cm0, h3⟩
        · intro p hp
          rw [h3] at hp
          exact absurd hp (List.not_mem_nil p)
        · exact (h0 mi cm0 es h3).2
    | errorCode l code mi' =>
      rcases mem_modAddEC m0 mi' (l, code) mi cm es (by simpa [buildStep] using hmem) with
        h | ⟨h1, es0, h2, h3⟩
      · exact h0 mi cm es h
      · subst h1
        rcases h3 with ⟨h3a, h3b⟩ | h3
        · refine ⟨Or.inl h3a, ?_⟩
          intro p hp
          rw [h2, h3b] at hp
          rcases List.mem_append.mp hp with hp | hp
          · exact absurd hp (List.not_mem_nil p)
          · rw [List.mem_singleton.mp hp]
            exact hxfacts.2 l code mi rfl
        · rcases h0 mi cm es0 h3 with ⟨hc, he⟩
          refine ⟨hc, ?_⟩
          intro p hp
          rw [h2] at hp
          rcases List.mem_append.mp hp with hp | hp
          · exact he p hp
          · rw [List.mem_singleton.mp hp]
            exact hxfacts.2 l code mi rfl

/-- Helper: a line occurs in the rebuilt file exactly when it is the
content of some item — the rebuild loses no nonblank line and invents
none (given the parser's invariants: pairwise distinct comment indexes
and nonempty comment lines). -/
theorem mem_rebuildItemsLines (items : List OrgItem)
    (hnd : (items.filterMap commentIdxOf).Pairwise (· ≠ ·))
    (hcm : ∀ cm mi, OrgItem.comment cm mi ∈ items → cm ≠ "")
    (l : String) :
    l ∈ rebuildItemsLines items ↔ l ∈ items.map itemContent := by
  unfold rebuildItemsLines
  dsimp only
  constructor
  · intro hmem
    rcases List.mem_append.mp hmem with hmem | hmem
    · rcases List.mem_append.mp hmem with hmem | hmem
      · rcases List.mem_filterMap.mp hmem with ⟨i, hi, hsome⟩
        have hcont : itemContent i = l := by
          cases i <;> simp_all [itemContent]
        exact hcont ▸ List.mem_map_of_mem itemContent hi
      · rcases List.mem_flatMap.mp hmem with ⟨mi, hmi, hline⟩
        cases hlk : (buildModules items).lookup mi with
        | none =>
          rw [hlk] at hline
          exact absurd hline (List.not_mem_nil l)
        | some md =>
          rw [hlk] at hline
          have hmd : (mi, md) ∈ buildModules items := lookup_mem _ _ _ hlk
          have hprov := buildFold_prov
            (fun mi cm => OrgItem.comment cm mi ∈ items)
            (fun mi p => OrgItem.errorCode p.1 p.2 mi ∈ items)
            items []
            (by
              intro mi cm es h
              exact absurd h (List.not_mem_nil _))
            (by
              intro i hi
              constructor
              · intro cm mi he
                exact he ▸ hi
              · intro l' c mi he
                exact he ▸ hi)
            mi md.1 md.2 (by simpa using hmd)
          unfold moduleLines at hline
          rcases List.mem_append.mp hline with hline | hline
          · by_cases hne : md.1 ≠ ""
            · rw [if_pos hne] at hline
              have hl : l = md.1 := List.mem_singleton.mp hline
              rcases hprov.1 with hcm0 | hcm0
              · exact absurd hcm0 (hl ▸ hne)
              · exact hl ▸ List.mem_map_of_mem itemContent hcm0
            · rw [if_neg hne] at hline
              exact absurd hline (List.not_mem_nil l)
          · rcases List.mem_map.mp hline with ⟨p, hp, hpl⟩
            have hp' : p ∈ md.2 := (mem_sortKeyed _ _ _).mp hp
            exact hpl ▸ List.mem_map_of_mem itemContent (hprov.2 p hp')
    · rcases List.mem_filterMap.mp hmem with ⟨i, hi, hsome⟩
      have hcont : itemContent i = l := by
        cases i <;> simp_all [itemContent]
      exact hcont ▸ List.mem_map_of_mem itemContent hi
  · intro hmem
    rcases List.mem_map.mp hmem with ⟨i, hi, hil⟩
    cases i with
    | header s =>
      apply List.mem_append_left
      apply List.mem_append_left
      exact List.mem_filterMap.mpr ⟨.header s, hi, by simpa [itemContent] using hil⟩
    | footer s =>
      apply List.mem_append_right
      exact List.mem_filterMap.mpr ⟨.footer s, hi, by simpa [itemContent] using hil⟩
    | comment cm mi =>
      apply List.mem_append_left
      apply List.mem_append_right
      rcases buildFold_comment items [] cm mi hi hnd with ⟨es, hlk⟩
      apply List.mem_flatMap.mpr
      refine ⟨mi, (mem_sortKeyed id _ mi).mpr (lookup_some_mem_keys _ _ _ hlk), ?_⟩
      rw [show (buildModules items).lookup mi = some (cm, es) from hlk]
      unfold moduleLines
      apply List.mem_append_left
      rw [if_pos (by simpa using hcm cm mi hi)]
      have hl : cm = l := by simpa [itemContent] using hil
      exact hl ▸ List.mem_singleton_self cm
    | errorCode s c mi =>
      apply List.mem_append_left
      apply List.mem_append_right
      rcases buildFold_ec items [] s c mi hi with ⟨cmm, es, hlk, hpes⟩
      apply List.mem_flatMap.mpr
      refine ⟨mi, (mem_sortKeyed id _ mi).mpr (lookup_some_mem_keys _ _ _ hlk), ?_⟩
      rw [show (buildModules items).lookup mi = some (cmm, es) from hlk]
      unfold moduleLines
      apply List.mem_append_right
      apply List.mem_map.mpr
      exact ⟨(s, c), (mem_sortKeyed _ _ _).mpr hpes, by simpa [itemContent] using hil⟩

/-- Helper: a line occurs in the organized output exactly when it is a
nonblank line of the input — the organize pass permutes the nonblank
lines and drops the blank ones. -/
theorem mem_organizeLines (ls : List String) (l : String) :
    l ∈ organizeLines ls ↔ l ∈ ls ∧ jsTrim l ≠ "" := by
  unfold organizeLines sortErrorCodesWithinModules
  dsimp only
  set items := reassignErrorCodesToCorrectModules (parseAllItems ls)
    (identifyModulePrefixRules (parseAllItems ls)) with hitems
  have hidx : items.filterMap commentIdxOf =
      (parseAllItems ls).filterMap commentIdxOf :=
    reassign_commentIdx _ _
  have hnd : (items.filterMap commentIdxOf).Pairwise (· ≠ ·) := by
    rw [hidx]
    exact ((parseItemsAux_commentIdx ls (-1)).1).imp fun h => ne_of_lt h
  have hcont : items.map itemContent = ls.filter fun l => jsTrim l ≠ "" := by
    rw [hitems, reassign_contents]
    exact parseItemsAux_contents ls (-1)
  have hcm : ∀ cm mi, OrgItem.comment cm mi ∈ items → cm ≠ "" := by
    intro cm mi hmem he
    have : itemContent (OrgItem.comment cm mi) ∈ items.map itemContent :=
      List.mem_map_of_mem itemContent hmem
    rw [hcont] at this
    have := List.of_mem_filter this
    subst he
    exact (by simpa using this : ¬ jsTrim "" = "") rfl
  rw [mem_rebuildItemsLines items hnd hcm l, hcont, List.mem_filter]
  simp

/-- C1 (amended): re-parsing the organize output yields exactly the
same entry set as re-parsing the input: an entry (code plus its line)
is classified in the organized lines iff it is classified in the
original lines.  (Byte-level idempotence of a second organize run does
*not* hold — see the counterexample.) -/
theorem organize_preserves_entry_set (ls : List String) (e : String × String) :
    e ∈ entriesOfLines (organizeLines ls) ↔ e ∈ entriesOfLines ls := by
  unfold entriesOfLines
  rw [List.mem_filterMap, List.mem_filterMap]
  constructor
  · rintro ⟨l, hl, hle⟩
    exact ⟨l, ((mem_organizeLines ls l).mp hl).1, hle⟩
  · rintro ⟨l, hl, hle⟩
    have hnb : jsTrim l ≠ "" := by
      intro he
      unfold lineEntryOf at hle
      rw [(classifyLine_eq_blank_iff l).mpr he] at hle
      exact Option.noConfusion hle
    exact ⟨l, (mem_organizeLines ls l).mpr ⟨hl, hnb⟩, hle⟩

/-- C1 counterexample: organize is not byte-level idempotent.  On this
file the first run moves `5555000` from module A to the purer module C;
on the result, module A and B now tie at one prefix each, so the second
run moves `1002000` from module B to module A and the output changes
again.  `organizeSourceFile exInput` is content "already produced by
the organize path", and organizing it once more is not the identity. -/
theorem organize_not_idempotent_counterexample :
    organizeSourceFile
        "const errCode = \x7b\n  // A模块\n  \"100\": \"a\",\n  \"5555000\": \"b\",\n  // B模块\n  \"1002000\": \"c\",\n  // C模块\n  \"5555111\": \"d\",\n\x7d" =
      "const errCode = \x7b\n  // A模块\n  \"100\": \"a\",\n  // B模块\n  \"1002000\": \"c\",\n  // C模块\n  \"5555000\": \"b\",\n  \"5555111\": \"d\",\n\x7d" ∧
    organizeSourceFile
        "const errCode = \x7b\n  // A模块\n  \"100\": \"a\",\n  // B模块\n  \"1002000\": \"c\",\n  // C模块\n  \"5555000\": \"b\",\n  \"5555111\": \"d\",\n\x7d" =
      "const errCode = \x7b\n  // A模块\n  \"100\": \"a\",\n  \"1002000\": \"c\",\n  // B模块\n  // C模块\n  \"5555000\": \"b\",\n  \"5555111\": \"d\",\n\x7d" ∧
    organizeSourceFile
        (organizeSourceFile
          "const errCode = \x7b\n  // A模块\n  \"100\": \"a\",\n  \"5555000\": \"b\",\n  // B模块\n  \"1002000\": \"c\",\n  // C模块\n  \"5555111\": \"d\",\n\x7d") ≠
      organizeSourceFile
        "const errCode = \x7b\n  // A模块\n  \"100\": \"a\",\n  \"5555000\": \"b\",\n  // B模块\n  \"1002000\": \"c\",\n  // C模块\n  \"5555111\": \"d\",\n\x7d" := by
  refine ⟨by decide, by decide, by decide⟩

/-- Helper: a line that trims to the closing bracket has no code. -/
theorem lineCodeOf_none_of_bracket (l : String) (h : jsTrim l = "\x7d") :
    lineCodeOf l = none := by
  unfold lineCodeOf
  rw [h]
  decide

/-- Helper: a trimmed line starting with `//` fails the code regex. -/
theorem matchErrCodeLine_none_of_slash (t : String) (h : jsStartsWith t "//" = true) :
    matchErrCodeLine t = none := by
  unfold jsStartsWith at h
  rw [decide_eq_true_eq] at h
  rcases h with ⟨r, hr⟩
  have h2 : ("//" : String).data = ['/', '/'] := rfl
  rw [h2] at hr
  unfold matchErrCodeLine
  rw [← hr, List.cons_append, List.cons_append, List.nil_append]
  dsimp only
  rw [if_neg (by decide)]

/-- Helper: the empty trimmed line fails the code regex. -/
theorem lineCodeOf_none_of_blank (l : String) (h : jsTrim l = "") :
    lineCodeOf l = none := by
  unfold lineCodeOf
  rw [h]
  decide

/-- Helper: `tmSet` makes its own key look up to the new line. -/
theorem tmSet_lookup_self (m : List (String × String)) (c l : String) :
    (tmSet m c l).lookup c = some l := by
  induction m with
  | nil => simp [tmSet, List.lookup]
  | cons p rest ih =>
    by_cases h : p.1 = c
    · simp [tmSet, h, List.lookup]
    · have hbe : (c == p.1) = false := beq_eq_false_iff_ne.mpr fun he => h he.symm
      simp only [tmSet]
      rw [if_neg (by simpa using h)]
      simp [List.lookup, hbe, ih]

/-- Helper: `tmSet` leaves other keys alone. -/
theorem tmSet_lookup_ne (m : List (String × String)) (c l c' : String)
    (h : c' ≠ c) : (tmSet m c l).lookup c' = m.lookup c' := by
  have hbe : (c' == c) = false := beq_eq_false_iff_ne.mpr h
  induction m with
  | nil => simp [tmSet, List.lookup, hbe]
  | cons p rest ih =>
    by_cases hp : p.1 = c
    · subst hp
      simp [tmSet, List.lookup, hbe]
    · simp only [tmSet]
      rw [if_neg (by simpa using hp)]
      cases hk : (c' == p.1) <;> simp [List.lookup, hk, ih]

/-- Helper: every pair of `tmSet m c l` is a pair of `m` or `(c, l)`. -/
theorem mem_tmSet (m : List (String × String)) (c l : String) (p : String × String)
    (h : p ∈ tmSet m c l) : p ∈ m ∨ p = (c, l) := by
  induction m with
  | nil =>
    simp only [tmSet] at h
    rcases List.mem_cons.mp h with h1 | h1
    · exact Or.inr h1
    · cases h1
  | cons q rest ih =>
    obtain ⟨k, v⟩ := q
    simp only [tmSet] at h
    by_cases hk : k = c
    · rw [if_pos hk] at h
      rcases List.mem_cons.mp h with h1 | h1
      · subst hk
        exact Or.inr h1
      · exact Or.inl (List.mem_cons_of_mem _ h1)
    · rw [if_neg hk] at h
      rcases List.mem_cons.mp h with h1 | h1
      · exact Or.inl (h1 ▸ List.mem_cons_self _ _)
      · rcases ih h1 with h2 | h2
        · exact Or.inl (List.mem_cons_of_mem _ h2)
        · exact Or.inr h2

/-- Helper: every pair in a `tmSet` fold comes from the seed map or
from the folded pair list. -/
theorem tmFold_prov (ps : List (String × String)) :
    ∀ (m0 : List (String × String)) (p : String × String),
      p ∈ ps.foldl (fun m ec => tmSet m ec.1 ec.2) m0 → p ∈ m0 ∨ p ∈ ps := by
  induction ps with
  | nil => exact fun m0 p h => Or.inl h
  | cons q ps ih =>
    intro m0 p h
    rw [List.foldl_cons] at h
    rcases ih _ p h with h1 | h1
    · rcases mem_tmSet m0 q.1 q.2 p h1 with h2 | h2
      · exact Or.inl h2
      · right
        rw [h2, Prod.mk.eta]
        exact List.mem_cons_self _ _
    · exact Or.inr (List.mem_cons_of_mem _ h1)

/-- Helper: a key looks up in a `tmSet` fold iff it is a folded key or
was already present in the seed map. -/
theorem tmFold_lookup_isSome (ps : List (String × String)) :
    ∀ (m0 : List (String × String)) (c : String),
      ((ps.foldl (fun m ec => tmSet m ec.1 ec.2) m0).lookup c).isSome = true ↔
        c ∈ ps.map Prod.fst ∨ ((m0.lookup c).isSome = true) := by
  induction ps with
  | nil => intro m0 c; simp
  | cons q ps ih =>
    intro m0 c
    rw [List.foldl_cons, ih, List.map_cons, List.mem_cons]
    by_cases hc : c = q.1
    · subst hc
      constructor
      · intro _
        exact Or.inl (Or.inl rfl)
      · intro _
        right
        rw [tmSet_lookup_self]
        rfl
    · rw [tmSet_lookup_ne m0 q.1 q.2 c hc]
      constructor
      · rintro (h | h)
        · exact Or.inl (Or.inr h)
        · exact Or.inr h
      · rintro ((h | h) | h)
        · exact absurd h hc
        · exact Or.inl h
        · exact Or.inr h

/-- Helper: `buildTargetMap` is the `tmSet` fold over the flattened
pair list. -/
theorem buildTargetMap_eq_fold (T : List OrgSection) :
    ∀ m0 : List (String × String),
      T.foldl (fun m s => s.errorCodes.foldl (fun mm ec => tmSet mm ec.1 ec.2) m) m0 =
        (secPairs T).foldl (fun m ec => tmSet m ec.1 ec.2) m0 := by
  induction T with
  | nil => intro m0; rfl
  | cons s T ih =>
    intro m0
    rw [List.foldl_cons, ih]
    unfold secPairs
    rw [List.flatMap_cons, List.foldl_append]

/-- Helper: one `parseSectionsStep` preserves state well-formedness. -/
theorem psStep_wf (L : List String) (st : PSState) (line : String)
    (hwf : psWF L st) (hline : line ∈ L) : psWF L (parseSectionsStep st line) := by
  obtain ⟨hs, hc, hb⟩ := hwf
  unfold parseSectionsStep
  dsimp only
  by_cases h1 : jsTrim line = "\x7d"
  · rw [if_pos h1]
    unfold psWF
    dsimp only
    refine ⟨hs, hc, ?_⟩
    intro b hbeq
    injection hbeq with h2
    subst h2
    exact lineCodeOf_none_of_bracket line h1
  · rw [if_neg h1]
    by_cases h2 : jsStartsWith (jsTrim line) "//" = true
    · rw [if_pos h2]
      have hlnone : lineCodeOf line = none := matchErrCodeLine_none_of_slash _ h2
      rcases hcur : st.current with _ | ⟨c, es⟩
      · unfold psWF
        dsimp only
        refine ⟨hs, ?_, hb⟩
        intro c' es' hceq
        injection hceq with h3
        rw [Prod.mk.injEq] at h3
        obtain ⟨h4, h5⟩ := h3
        subst h4
        subst h5
        exact ⟨hlnone, fun ec hec => absurd hec (List.not_mem_nil ec)⟩
      · unfold psWF
        dsimp only
        refine ⟨?_, ?_, hb⟩
        · intro s hsin
          rcases List.mem_append.mp hsin with hl | hr
          · exact hs s hl
          · have hseq : s = ⟨c, es⟩ := List.mem_singleton.mp hr
            subst hseq
            exact hc c es hcur
        · intro c' es' hceq
          injection hceq with h3
          rw [Prod.mk.injEq] at h3
          obtain ⟨h4, h5⟩ := h3
          subst h4
          subst h5
          exact ⟨hlnone, fun ec hec => absurd hec (List.not_mem_nil ec)⟩
    · rw [if_neg h2]
      rcases hm : matchErrCodeLine (jsTrim line) with _ | code
      · have hlnone : lineCodeOf line = none := hm
        rcases hcur : st.current with _ | ⟨c, es⟩
        · unfold psWF
          dsimp only
          refine ⟨?_, ?_, hb⟩
          · intro s hsin
            rcases List.mem_append.mp hsin with hl | hr
            · exact hs s hl
            · have hseq : s = ⟨line, []⟩ := List.mem_singleton.mp hr
              subst hseq
              exact ⟨hlnone, fun ec hec => absurd hec (List.not_mem_nil ec)⟩
          · intro c' es' hceq
            cases hceq
        · dsimp only
          exact ⟨hs, hc, hb⟩
      · have hlsome : lineCodeOf line = some code := hm
        rcases hcur : st.current with _ | ⟨c, es⟩
        · unfold psWF
          dsimp only
          refine ⟨hs, ?_, hb⟩
          intro c' es' hceq
          injection hceq with h3
          rw [Prod.mk.injEq] at h3
          obtain ⟨h4, h5⟩ := h3
          subst h4
          subst h5
          refine ⟨by decide, ?_⟩
          intro ec hec
          have hecq : ec = (code, line) := List.mem_singleton.mp hec
          subst hecq
          exact ⟨hlsome, hline⟩
        · unfold psWF
          dsimp only
          refine ⟨hs, ?_, hb⟩
          intro c' es' hceq
          injection hceq with h3
          rw [Prod.mk.injEq] at h3
          obtain ⟨h4, h5⟩ := h3
          subst h4
          subst h5
          obtain ⟨hcnone, hpairs⟩ := hc c es hcur
          refine ⟨hcnone, ?_⟩
          intro ec hec
          rcases List.mem_append.mp hec with hl | hr
          · exact hpairs ec hl
          · have hecq : ec = (code, line) := List.mem_singleton.mp hr
            subst hecq
            exact ⟨hlsome, hline⟩

/-- Helper: the pairs recorded after one step are the old pairs plus,
exactly when the line matches the code regex, the line's own pair. -/
theorem psStep_pairs (st : PSState) (line : String) (p : String × String) :
    p ∈ psPairs (parseSectionsStep st line) ↔
      p ∈ psPairs st ∨ (lineCodeOf line = some p.1 ∧ p.2 = line) := by
  obtain ⟨sec, cur, br⟩ := st
  unfold parseSectionsStep
  dsimp only
  by_cases h1 : jsTrim line = "\x7d"
  · rw [if_pos h1, lineCodeOf_none_of_bracket line h1]
    simp [psPairs]
  · rw [if_neg h1]
    by_cases h2 : jsStartsWith (jsTrim line) "//" = true
    · rw [if_pos h2]
      rw [show lineCodeOf line = none from matchErrCodeLine_none_of_slash _ h2]
      rcases cur with _ | ⟨c, es⟩
      · dsimp only
        simp [psPairs]
      · dsimp only
        simp [psPairs]
    · rw [if_neg h2]
      unfold lineCodeOf
      rcases hm : matchErrCodeLine (jsTrim line) with _ | code
      · rcases cur with _ | ⟨c, es⟩
        · dsimp only
          simp [psPairs]
        · dsimp only
          simp [psPairs]
      · rcases cur with _ | ⟨c, es⟩
        · dsimp only
          simp [psPairs, Prod.ext_iff, eq_comm]
        · dsimp only
          simp [psPairs, Prod.ext_iff, eq_comm, or_assoc]

/-- Helper: the whole `parseSections` fold preserves well-formedness. -/
theorem psFold_wf (L : List String) (ls : List String) :
    ∀ st : PSState, psWF L st → (∀ l ∈ ls, l ∈ L) →
      psWF L (ls.foldl parseSectionsStep st) := by
  induction ls with
  | nil => exact fun st h _ => h
  | cons l ls ih =>
    intro st h hsub
    rw [List.foldl_cons]
    exact ih _ (psStep_wf L st l h (hsub l (List.mem_cons_self _ _)))
      (fun x hx => hsub x (List.mem_cons_of_mem _ hx))

/-- Helper: the pairs recorded by the whole fold are the seed pairs
plus exactly the code lines of the input, keyed by their codes. -/
theorem psFold_pairs (ls : List String) :
    ∀ (st : PSState) (p : String × String),
      p ∈ psPairs (ls.foldl parseSectionsStep st) ↔
        p ∈ psPairs st ∨ (p.2 ∈ ls ∧ lineCodeOf p.2 = some p.1) := by
  induction ls with
  | nil =>
    intro st p
    simp
  | cons l ls ih =>
    intro st p
    rw [List.foldl_cons, ih, psStep_pairs, List.mem_cons]
    constructor
    · rintro ((h | ⟨hcode, hl⟩) | ⟨hmem, hcode⟩)
      · exact Or.inl h
      · exact Or.inr ⟨Or.inl hl, by rw [hl]; exact hcode⟩
      · exact Or.inr ⟨Or.inr hmem, hcode⟩
    · rintro (h | ⟨(hl | hmem), hcode⟩)
      · exact Or.inl (Or.inl h)
      · exact Or.inl (Or.inr ⟨by rw [← hl]; exact hcode, hl⟩)
      · exact Or.inr ⟨hmem, hcode⟩

/-- Helper: the code/line pairs of the parsed sections are exactly the
input's code lines keyed by their codes. -/
theorem secPairs_parseSections (ls : List String) (p : String × String) :
    p ∈ secPairs (parseSections ls) ↔ p.2 ∈ ls ∧ lineCodeOf p.2 = some p.1 := by
  have hp := psFold_pairs ls ⟨[], none, none⟩ p
  unfold parseSections secPairs
  dsimp only
  rcases hcur : (ls.foldl parseSectionsStep ⟨[], none, none⟩).current with _ | ⟨c, es⟩ <;>
    rcases hbr : (ls.foldl parseSectionsStep ⟨[], none, none⟩).endBracket with _ | b <;>
      simp [psPairs, hcur] at hp <;>
        simp [List.mem_append] <;>
          tauto

/-- Helper: every parsed section has a comment line that fails the code
regex, and every recorded pair is an input line carrying that code. -/
theorem parseSections_wf (ls : List String) :
    ∀ s ∈ parseSections ls, lineCodeOf s.comment = none ∧
      ∀ ec ∈ s.errorCodes, lineCodeOf ec.2 = some ec.1 ∧ ec.2 ∈ ls := by
  have hwf : psWF ls (ls.foldl parseSectionsStep ⟨[], none, none⟩) := by
    refine psFold_wf ls ls ⟨[], none, none⟩ ?_ (fun l hl => hl)
    refine ⟨?_, ?_, ?_⟩
    · intro s hsin
      cases hsin
    · intro c es hceq
      cases hceq
    · intro b hbeq
      cases hbeq
  obtain ⟨hs, hc, hb⟩ := hwf
  intro s hsin
  unfold parseSections at hsin
  dsimp only at hsin
  rcases hcur : (ls.foldl parseSectionsStep ⟨[], none, none⟩).current with _ | ⟨c, es⟩ <;>
    rcases hbr : (ls.foldl parseSectionsStep ⟨[], none, none⟩).endBracket with _ | b <;>
      rw [hcur, hbr] at hsin <;> dsimp only at hsin
  · exact hs s hsin
  · rcases List.mem_append.mp hsin with hl | hr
    · exact hs s hl
    · have hseq : s = ⟨b, []⟩ := List.mem_singleton.mp hr
      subst hseq
      exact ⟨hb b hbr, fun ec hec => absurd hec (List.not_mem_nil ec)⟩
  · rcases List.mem_append.mp hsin with hl | hr
    · exact hs s hl
    · have hseq : s = ⟨c, es⟩ := List.mem_singleton.mp hr
      subst hseq
      exact hc c es hcur
  · rcases List.mem_append.mp hsin with hl | hr
    · rcases List.mem_append.mp hl with hll | hlr
      · exact hs s hll
      · have hseq : s = ⟨c, es⟩ := List.mem_singleton.mp hlr
        subst hseq
        exact hc c es hcur
    · have hseq : s = ⟨b, []⟩ := List.mem_singleton.mp hr
      subst hseq
      exact ⟨hb b hbr, fun ec hec => absurd hec (List.not_mem_nil ec)⟩

/-- Helper: organizing the source keeps exactly the same code set. -/
theorem extractCodes_organize (ls : List String) (c : String) :
    c ∈ extractCodes (organizeLines ls) ↔ c ∈ extractCodes ls := by
  unfold extractCodes
  rw [List.mem_filterMap, List.mem_filterMap]
  constructor
  · rintro ⟨l, hl, hc⟩
    exact ⟨l, ((mem_organizeLines ls l).mp hl).1, hc⟩
  · rintro ⟨l, hl, hc⟩
    have hnb : jsTrim l ≠ "" := by
      intro he
      rw [lineCodeOf_none_of_blank l he] at hc
      cases hc
    exact ⟨l, (mem_organizeLines ls l).mpr ⟨hl, hnb⟩, hc⟩

/-- Helper: membership in the rebuilt target map implies a recorded
target pair. -/
theorem buildTargetMap_sub (T : List OrgSection) (p : String × String)
    (h : p ∈ buildTargetMap T) : p ∈ secPairs T := by
  unfold buildTargetMap at h
  rw [buildTargetMap_eq_fold] at h
  rcases tmFold_prov (secPairs T) [] p h with h1 | h1
  · cases h1
  · exact h1

/-- Helper: the rebuilt target map has a value for a code iff some
target pair carries that code. -/
theorem buildTargetMap_lookup_isSome (T : List OrgSection) (c : String) :
    (((buildTargetMap T).lookup c).isSome = true) ↔ c ∈ (secPairs T).map Prod.fst := by
  unfold buildTargetMap
  rw [buildTargetMap_eq_fold, tmFold_lookup_isSome]
  simp [List.lookup]

/-- C9: the organize full-rebuild of a target error-code file writes
exactly the codes present in both the (organized) source file and the
original target file: every redundant target entry (absent from the
source) is dropped, and no missing source entry (absent from the
target) is added. -/
theorem organize_target_keys_intersection (srcLines tgtLines : List String) (c : String) :
    c ∈ extractCodes (organizeTargetLines tgtLines srcLines) ↔
      c ∈ extractCodes srcLines ∧ c ∈ extractCodes tgtLines := by
  constructor
  · intro h
    unfold organizeTargetLines rebuildTargetLines extractCodes at h
    dsimp only at h
    rw [List.mem_filterMap] at h
    obtain ⟨l, hl, hcl⟩ := h
    rw [List.mem_flatMap] at hl
    obtain ⟨s, hs, hls⟩ := hl
    rcases List.mem_cons.mp hls with hcom | hfm
    · have hnone := (parseSections_wf (organizeLines srcLines) s hs).1
      rw [hcom, hnone] at hcl
      cases hcl
    · rw [List.mem_filterMap] at hfm
      obtain ⟨ec, hec, hlook⟩ := hfm
      have hmem : (ec.1, l) ∈ buildTargetMap (parseSections tgtLines) :=
        lookup_mem _ _ _ hlook
      obtain ⟨hlt0, hlc⟩ := (secPairs_parseSections tgtLines (ec.1, l)).mp
        (buildTargetMap_sub _ _ hmem)
      dsimp only at hlt0 hlc
      have hc1 : ec.1 = c := by
        rw [hcl] at hlc
        exact (Option.some.inj hlc).symm
      constructor
      · rw [← extractCodes_organize]
        unfold extractCodes
        rw [List.mem_filterMap]
        have hsp2 := (secPairs_parseSections (organizeLines srcLines) ec).mp
          (List.mem_flatMap.mpr ⟨s, hs, hec⟩)
        exact ⟨ec.2, hsp2.1, by rw [← hc1]; exact hsp2.2⟩
      · unfold extractCodes
        rw [List.mem_filterMap]
        exact ⟨l, hlt0, hcl⟩
  · rintro ⟨hsrc, htgt⟩
    rw [← extractCodes_organize] at hsrc
    unfold extractCodes at hsrc htgt
    rw [List.mem_filterMap] at hsrc htgt
    obtain ⟨l, hl, hcl⟩ := hsrc
    have hsp : (c, l) ∈ secPairs (parseSections (organizeLines srcLines)) :=
      (secPairs_parseSections _ (c, l)).mpr ⟨hl, hcl⟩
    obtain ⟨s, hs, hec⟩ := List.mem_flatMap.mp hsp
    obtain ⟨l2, hl2, hcl2⟩ := htgt
    have hspT : (c, l2) ∈ secPairs (parseSections tgtLines) :=
      (secPairs_parseSections _ (c, l2)).mpr ⟨hl2, hcl2⟩
    have hisSome : ((buildTargetMap (parseSections tgtLines)).lookup c).isSome = true := by
      rw [buildTargetMap_lookup_isSome]
      exact List.mem_map.mpr ⟨(c, l2), hspT, rfl⟩
    obtain ⟨lt, hlt⟩ := Option.isSome_iff_exists.mp hisSome
    obtain ⟨hltmem, hltc⟩ := (secPairs_parseSections tgtLines (c, lt)).mp
      (buildTargetMap_sub _ _ (lookup_mem _ _ _ hlt))
    dsimp only at hltmem hltc
    unfold organizeTargetLines rebuildTargetLines extractCodes
    dsimp only
    rw [List.mem_filterMap]
    refine ⟨lt, ?_, hltc⟩
    rw [List.mem_flatMap]
    refine ⟨s, hs, ?_⟩
    refine List.mem_cons.mpr (Or.inr ?_)
    rw [List.mem_filterMap]
    exact ⟨(c, l), hec, hlt⟩
